import Mathlib

/-!
Verification development for the MakerReach repository (scraper.py, emailer.py).

The Python source is shallowly embedded: dict-backed CSV rows become
association-list `Record`s, the page driver's anchors become plain string
lists, and the mail transport / wall clock become oracles passed as
functions.  All string manipulation is re-implemented structurally over
`List Char` so that every definition is executable and kernel-reducible.
-/

namespace MakerReach

/-! ### ASCII string primitives (models of the Python `str` operations used) -/

/-- Membership of `c` in the set Python treats as whitespace for
`str.strip()` / `str.split()` (ASCII fragment). -/
def pyWsB (c : Char) : Bool :=
  c == ' ' || (9 ≤ c.toNat && c.toNat ≤ 13)

/-- ASCII decimal digit test (models `str.isdigit` on ASCII input). -/
def isDigitB (c : Char) : Bool :=
  48 ≤ c.toNat && c.toNat ≤ 57

/-- ASCII lower-casing of one character (models `str.lower` on ASCII input). -/
def lowerChar (c : Char) : Char :=
  if 65 ≤ c.toNat && c.toNat ≤ 90 then Char.ofNat (c.toNat + 32) else c

/-- Lower-case a string, ASCII fragment of Python `str.lower`. -/
def lowerS (s : String) : String :=
  ⟨s.data.map lowerChar⟩

/-- Trim whitespace from both ends of a character list. -/
def trimL (l : List Char) : List Char :=
  ((l.dropWhile pyWsB).reverse.dropWhile pyWsB).reverse

/-- Python `str.strip()` (ASCII whitespace). -/
def trimS (s : String) : String :=
  ⟨trimL s.data⟩

/-- First whitespace-delimited token of a string; `""` when the string is
empty or all whitespace.  `s.split()[0]` in Python terms. -/
def firstToken (s : String) : String :=
  ⟨(s.data.dropWhile pyWsB).takeWhile (fun c => !pyWsB c)⟩

/-- Boolean list-prefix test. -/
def isPrefixL : List Char → List Char → Bool
  | [], _ => true
  | _ :: _, [] => false
  | a :: as, b :: bs => a == b && isPrefixL as bs

/-- Boolean contiguous-sublist test: does `n` occur inside the second list? -/
def isInfixL (n : List Char) : List Char → Bool
  | [] => isPrefixL n []
  | c :: rest => isPrefixL n (c :: rest) || isInfixL n rest

/-- Python `needle in hay` on strings. -/
def substrB (needle hay : String) : Bool :=
  isInfixL needle.data hay.data

/-- Drop the first `n` characters of a list. -/
def dropN : Nat → List Char → List Char
  | 0, l => l
  | _ + 1, [] => []
  | n + 1, _ :: rest => dropN n rest

/-- Split at the leftmost occurrence of `sep`: `some (before, after)`, or
`none` when `sep` does not occur.  Models Python `s.split(sep, 1)`. -/
def breakOnAux (sep : List Char) : List Char → Option (List Char × List Char)
  | [] => if isPrefixL sep [] then some ([], []) else none
  | c :: rest =>
    if isPrefixL sep (c :: rest) then some ([], dropN sep.length (c :: rest))
    else
      match breakOnAux sep rest with
      | some (pre, post) => some (c :: pre, post)
      | none => none

/-- String version of `breakOnAux`. -/
def breakOnS (sep s : String) : Option (String × String) :=
  match breakOnAux sep.data s.data with
  | some (pre, post) => some (⟨pre⟩, ⟨post⟩)
  | none => none

/-- Replace every (leftmost-first, non-overlapping) occurrence of `pat` by
`rep`; fuel-driven so that it is structurally recursive.  With fuel at least
the length of the input this is Python `str.replace`. -/
def replaceFuel (pat rep : List Char) : Nat → List Char → List Char
  | 0, l => l
  | _ + 1, [] => []
  | fuel + 1, c :: rest =>
    if isPrefixL pat (c :: rest) && !pat.isEmpty then
      rep ++ replaceFuel pat rep fuel (dropN pat.length (c :: rest))
    else
      c :: replaceFuel pat rep fuel rest

/-- Python `s.replace(pat, rep)` for non-empty `pat`. -/
def replaceStr (s pat rep : String) : String :=
  ⟨replaceFuel pat.data rep.data (s.data.length + 1) s.data⟩

/-- Python `s.split('?')[0]`: everything before the first `'?'`. -/
def stripQuery (s : String) : String :=
  ⟨s.data.takeWhile (fun c => c != '?')⟩

/-- Join a list of strings with a separator (Python `sep.join(l)`). -/
def joinSep (sep : String) : List String → String
  | [] => ""
  | [s] => s
  | s :: rest => s ++ sep ++ joinSep sep rest

/-! ### Records (Python dicts read from the CSV store by `csv.DictReader`) -/

/-- Lookup in an association list of string fields (Python `dict` access). -/
def lookupF : List (String × String) → String → Option String
  | [], _ => none
  | (k', v) :: rest, k => if k' = k then some v else lookupF rest k

/-- Set a field: replace in place when the key exists, append otherwise
(Python `row[k] = v` on a dict). -/
def setField : List (String × String) → String → String → List (String × String)
  | [], k, v => [(k, v)]
  | (k', v') :: rest, k, v =>
    if k' = k then (k, v) :: rest else (k', v') :: setField rest k v

/-- One CSV row / Python dict: an ordered association list of fields. -/
structure Record where
  fields : List (String × String)
deriving DecidableEq

/-- Python `row.get(k, d)`. -/
def Record.get (r : Record) (k d : String) : String :=
  match lookupF r.fields k with
  | some v => v
  | none => d

/-- Python `row[k] = v`. -/
def Record.set (r : Record) (k v : String) : Record :=
  ⟨setField r.fields k v⟩

/-- The empty record (used as an out-of-range default). -/
def rec0 : Record := ⟨[]⟩

/-! ### Emailer: `emailer.py` -/

/-- Denylist of substrings marking a stored email as a placeholder/invalid
address (`invalid_patterns` in `process_csv`). -/
def invalid_patterns : List String :=
  ["example.com", "your@", "you@", "noreply@", "no-reply@",
   "test@", "demo@", ".webp", "footer.email"]

/-- Does a (already stripped) email match the delivery denylist?
`any(p in email.lower() for p in invalid_patterns)` in `process_csv`. -/
def isInvalidEmail (email : String) : Bool :=
  invalid_patterns.any (fun p => substrB p (lowerS email))

/-- Eligibility of one row for a send attempt, exactly the tests of
`process_csv`'s filter loop: non-empty stripped email, `email_sent` not
already `sent` (case-insensitively), email not on the denylist. -/
def eligibleB (r : Record) : Bool :=
  let email := trimS (r.get "email" "")
  let es := lowerS (trimS (r.get "email_sent" ""))
  email ≠ "" && es ≠ "sent" && !isInvalidEmail email

/-- Does the filter loop mark this row `skipped`?  (Non-empty email, not yet
sent, but on the denylist.) -/
def skipB (r : Record) : Bool :=
  let email := trimS (r.get "email" "")
  let es := lowerS (trimS (r.get "email_sent" ""))
  email ≠ "" && es ≠ "sent" && isInvalidEmail email

/-- Write the two delivery-status trailer fields of a row, in the order the
source assigns them (`email_sent` then `email_sent_at`). -/
def updateStatus (r : Record) (st ts : String) : Record :=
  (r.set "email_sent" st).set "email_sent_at" ts

/-- The filter loop of `process_csv` (lines 167-187): walks the rows with
their indices, returning the `to_send` list of `(index, row)` pairs and the
row list with denylisted rows marked `skipped`.  `timeF` supplies the
`datetime.now()` timestamp used at row index `i`. -/
def filterRows (timeF : Nat → String) : Nat → List Record → List (Nat × Record) × List Record
  | _, [] => ([], [])
  | i, r :: rest =>
    let acc := filterRows timeF (i + 1) rest
    let email := trimS (r.get "email" "")
    let es := lowerS (trimS (r.get "email_sent" ""))
    if email = "" then (acc.1, r :: acc.2)
    else if es = "sent" then (acc.1, r :: acc.2)
    else if isInvalidEmail email then
      (acc.1, updateStatus r "skipped" (timeF i) :: acc.2)
    else ((i, r) :: acc.1, r :: acc.2)

/-- Add `''` for every fieldname missing from a row, in fieldname order: the
`for field in fieldnames: if field not in row: row[field] = ''` loop that
runs before each CSV write. -/
def fillRow (fns : List String) (r : Record) : Record :=
  fns.foldl (fun r f => if (lookupF r.fields f).isSome then r else r.set f "") r

/-- The row that `csv.DictWriter` actually emits: exactly the `fieldnames`
columns, each holding the row's value for that column. -/
def projectTo (fns : List String) (r : Record) : Record :=
  ⟨fns.map (fun f => (f, r.get f ""))⟩

/-- Take the first whitespace-delimited part of a maker name, falling back
to the greeting token `"there"` (`extract_first_name` in `emailer.py`). -/
def extract_first_name (maker_name : String) : String :=
  if maker_name = "" then "there"
  else if firstToken (trimS maker_name) = "" then "there"
  else firstToken (trimS maker_name)

/-- Source-tag to friendly platform-label lookup (`platform_names`). -/
def platform_names : List (String × String) :=
  [("producthunt", "Product Hunt"),
   ("hackernews", "Hacker News"),
   ("indiehackers", "Indie Hackers")]

/-- Render the template for one product: substitute the three placeholders
and derive the subject line (`personalize_email` in `emailer.py`).
Returns `(subject, body)`. -/
def personalize_email (template : String) (product : Record) : String × String :=
  let first_name := extract_first_name (product.get "maker_name" "")
  let product_name := product.get "name" "your product"
  let lp0 := product.get "source" "Product Hunt"
  let launch_platform :=
    match lookupF platform_names (lowerS lp0) with
    | some v => v
    | none => lp0
  let body := replaceStr template "\x7b\x7bFirstName\x7d\x7d" first_name
  let body := replaceStr body "\x7b\x7bProductName\x7d\x7d" product_name
  let body := replaceStr body "\x7b\x7bLaunchPlatform\x7d\x7d" launch_platform
  let subject := "Congrats on launching " ++ product_name ++ "!"
  (subject, body)

/-- The request handed to the mail transport (`params` in `send_email`). -/
structure MailParams where
  fromAddr : String
  toAddrs : List String
  subject : String
  text : String
deriving DecidableEq

/-- Default mail-params value (out-of-range placeholder). -/
def mp0 : MailParams := ⟨"", [], "", ""⟩

/-- Build the transport request for one product, combining the per-record
part of `process_csv`'s send loop with `send_email`: in test mode the
recipient is the test address, otherwise the row's raw `email` value. -/
def mkSendParams (template fromEmail : String) (testMode : Bool)
    (testEmail : String) (product : Record) : MailParams :=
  let sb := personalize_email template product
  { fromAddr := fromEmail
    toAddrs := [if testMode then testEmail else product.get "email" ""]
    subject := sb.1
    text := sb.2 }

/-- Result of the send loop: the in-memory rows at the end, the successive
snapshots persisted to the store (one per attempt), the transport requests
issued, and the success/failure tallies. -/
structure LoopResult where
  rows : List Record
  writes : List (List Record)
  sent : List MailParams
  sentCount : Nat
  failedCount : Nat
deriving DecidableEq

/-- Row-set evolution of one send attempt: record `sent`/`failed` and the
attempt timestamp on row `ri`, then fill missing columns on every row (the
pre-write loop), exactly as the body of `process_csv`'s send loop does. -/
def stepRows (transport : Nat → Bool) (timeS : Nat → String) (fns : List String)
    (k ri : Nat) (rows : List Record) : List Record :=
  (rows.set ri (updateStatus (rows.getD ri rec0)
    (if transport k then "sent" else "failed") (timeS k))).map (fillRow fns)

/-- The send loop of `process_csv` (lines 199-243): for each `(index, row)`
pair still to send, build and issue the transport request, record `sent` or
`failed` with the attempt timestamp on that row, fill any missing columns,
and persist the whole row set before moving on.  `transport k` is the
success/failure outcome of the `k`-th attempt and `timeS k` its timestamp. -/
def sendLoop (template fromEmail : String) (testMode : Bool) (testEmail : String)
    (transport : Nat → Bool) (timeS : Nat → String) (fns : List String) :
    Nat → List Record → List (Nat × Record) → LoopResult
  | _, rows, [] => ⟨rows, [], [], 0, 0⟩
  | k, rows, (ri, _) :: rest =>
    let product := rows.getD ri rec0
    let params := mkSendParams template fromEmail testMode testEmail product
    let ok := transport k
    let rows2 := stepRows transport timeS fns k ri rows
    let acc := sendLoop template fromEmail testMode testEmail transport timeS fns
      (k + 1) rows2 rest
    ⟨acc.rows, rows2.map (projectTo fns) :: acc.writes, params :: acc.sent,
     (if ok then 1 else 0) + acc.sentCount, (if ok then 0 else 1) + acc.failedCount⟩

/-- Observable behaviour of one `process_csv` run. -/
structure RunResult where
  toSend : List (Nat × Record)
  attempts : List (Nat × Record)
  rowsAfterFilter : List Record
  finalRows : List Record
  writes : List (List Record)
  sent : List MailParams
  sentCount : Nat
  failedCount : Nat
deriving DecidableEq

/-- The `fieldnames` list: the CSV header with `email_sent` and
`email_sent_at` appended when absent. -/
def mkFieldnames (header : List String) : List String :=
  (header ++ (if header.contains "email_sent" then [] else ["email_sent"]))
    ++ (if (header ++ (if header.contains "email_sent" then [] else ["email_sent"])).contains
          "email_sent_at" then [] else ["email_sent_at"])

/-- The Delivery State Machine, `process_csv` in `emailer.py`: filter the
rows for eligibility (marking denylisted rows `skipped` in memory), cap the
eligible list when a limit is given (Python's `if limit and limit <
len(to_send)`), then run the send loop. -/
def process_csv (template fromEmail : String) (testMode : Bool) (testEmail : String)
    (header : List String) (limit : Option Nat)
    (transport : Nat → Bool) (timeF timeS : Nat → String)
    (rows : List Record) : RunResult :=
  let fns := mkFieldnames header
  let fr := filterRows timeF 0 rows
  let ts2 :=
    match limit with
    | none => fr.1
    | some n => if 0 < n && n < fr.1.length then fr.1.take n else fr.1
  let lr := sendLoop template fromEmail testMode testEmail transport timeS fns 0 fr.2 ts2
  ⟨fr.1, ts2, fr.2, lr.rows, lr.writes, lr.sent, lr.sentCount, lr.failedCount⟩

/-! ### Scraper: `scraper.py` -/

/-- Denylist of substrings that disqualify a regex-extracted email in
`extract_emails_from_page` (asset hosts, tracker domains, image suffixes). -/
def scraper_invalid_substrings : List String :=
  ["example.com", "sentry.io", "wixpress", "cloudflare", "googleapis",
   "schema.org", "w3.org", "webpack", "github", ".png", ".jpg", ".svg"]

/-- Does `extract_emails_from_page` keep a (lower-cased) regex match?  The
`mailto:` path of that function performs no such check. -/
def keepRegexEmail (email : String) : Bool :=
  !(scraper_invalid_substrings.any (fun p => substrB p (lowerS email)))

/-- Accumulator of `get_maker_social_links`: first twitter/linkedin/github
match kept, every "other" social link appended. -/
structure SocialAcc where
  twitter : String
  linkedin : String
  github : String
  others : List String
deriving DecidableEq

/-- Hosts whose links are collected into `other_social`. -/
def other_social_hosts : List String :=
  ["instagram.com/", "youtube.com/", "facebook.com/",
   "tiktok.com/", "medium.com/@", "dev.to/", "threads.net/"]

/-- GitHub path segments that disqualify a link as a personal profile. -/
def github_excluded_segments : List String :=
  ["/issues", "/pull", "/blob", "/tree"]

/-- One iteration of the link-classification loop in
`get_maker_social_links`: the `href` is lower-cased for matching, the
original string is stored. -/
def socialStep (acc : SocialAcc) (href : String) : SocialAcc :=
  let h := lowerS href
  if (substrB "twitter.com/" h || substrB "x.com/" h) && acc.twitter = "" then
    if !substrB "/ProductHunt" h && !substrB "/producthunt" h then
      { acc with twitter := href }
    else acc
  else if substrB "linkedin.com/in/" h && acc.linkedin = "" then
    { acc with linkedin := href }
  else if substrB "github.com/" h && acc.github = "" then
    if !(github_excluded_segments.any (fun x => substrB x h)) then
      { acc with github := href }
    else acc
  else if other_social_hosts.any (fun s => substrB s h) then
    { acc with others := acc.others ++ [href] }
  else acc

/-- `get_maker_social_links` over the page's anchor hrefs: classify every
link, then join at most the first three "other" links with `" | "`.
Returns the accumulator together with the `other_social` field value. -/
def get_maker_social_links (links : List String) : SocialAcc × String :=
  let acc := links.foldl socialStep ⟨"", "", "", []⟩
  (acc, joinSep " | " (acc.others.take 3))

/-- A link qualifying for the `twitter` slot: twitter/x host substring and
not the ProductHunt house account. -/
def twitterQualB (href : String) : Bool :=
  let h := lowerS href
  (substrB "twitter.com/" h || substrB "x.com/" h) &&
    (!substrB "/ProductHunt" h && !substrB "/producthunt" h)

/-- An anchor on the product detail page: its visible text and its `href`
attribute (`""` when the attribute is missing). -/
structure Anchor where
  text : String
  href : String
deriving DecidableEq

/-- Text test of the website-resolution loop: the stripped, lower-cased
anchor text contains "visit website". -/
def anchorTextOkB (a : Anchor) : Bool :=
  substrB "visit website" (lowerS (trimS a.text))

/-- Target test of the website-resolution loop: the href is non-empty and
does not contain the substring `producthunt.com` anywhere (`if href and
'producthunt.com' not in href`). -/
def anchorHrefOkB (a : Anchor) : Bool :=
  a.href ≠ "" && !substrB "producthunt.com" a.href

/-- `get_product_website`: return the query-stripped href of the first
anchor whose text contains "visit website" (case-insensitively) and whose
non-empty href does not contain the substring `producthunt.com`; anchors
failing the href test are passed over and scanning continues. -/
def get_product_website : List Anchor → String
  | [] => ""
  | a :: rest =>
    if anchorTextOkB a then
      if anchorHrefOkB a then stripQuery a.href
      else get_product_website rest
    else get_product_website rest

/-- Modelled from the spec: the host component of a URL ("its target host"),
everything between `"://"` and the next `/`.  Used only to compare the
code's substring test with the spec's host-difference requirement. -/
def specHost (url : String) : String :=
  match breakOnS "://" url with
  | some (_, rest) => ⟨rest.data.takeWhile (fun c => c != '/')⟩
  | none => ⟨url.data.takeWhile (fun c => c != '/')⟩

/-- One listing-page product entry as `scrape_producthunt` reads it: its
stable `data-test` identifier, the raw product-name text, the detail-page
href, and the candidate tagline texts in document order. -/
structure Post where
  postId : String
  rawName : String
  href : String
  texts : List String
deriving DecidableEq

/-- Numbered-prefix title cleanup in `scrape_producthunt`:
`if '. ' in name[:6] and name.split('. ')[0].isdigit(): name = name.split('. ', 1)[1]`. -/
def normalizeName (name : String) : String :=
  let headPart : String :=
    match breakOnS ". " name with
    | some (pre, _) => pre
    | none => name
  if isInfixL ". ".data (name.data.take 6) &&
      (headPart ≠ "" && headPart.data.all isDigitB) then
    match breakOnS ". " name with
    | some (_, post) => post
    | none => name
  else name

/-- Tagline selection: the first text that is non-empty, not purely
numeric, longer than 10 characters, different from the (normalized) name
and not prefixed by it. -/
def pickTagline (name : String) : List String → String
  | [] => ""
  | t :: rest =>
    let txt := trimS t
    if txt ≠ "" && !(txt.data ≠ [] && txt.data.all isDigitB) && 10 < txt.data.length
        && txt ≠ name && !isPrefixL name.data txt.data then txt
    else pickTagline name rest

/-- One seed record of the Collector (`product_data` entries). -/
structure Seed where
  name : String
  tagline : String
  ph_url : String
deriving DecidableEq

/-- Build the seed record for one post, or `none` when its stripped name is
empty (the `if not name: continue` branch). -/
def seedOf (p : Post) : Option Seed :=
  let name := trimS p.rawName
  if name = "" then none
  else
    let name := normalizeName name
    let ph_url :=
      if p.href ≠ "" && isPrefixL "/".data p.href.data then
        "https://www.producthunt.com" ++ p.href
      else p.href
    some ⟨name, pickTagline name p.texts, ph_url⟩

/-- The collection loop of `scrape_producthunt` (lines 298-339): walk the
posts, skip an id already seen (the id is recorded as seen before the
empty-name check, as in the source), and emit seed records. -/
def collectAux : List String → List Post → List Seed
  | _, [] => []
  | seen, p :: rest =>
    if seen.contains p.postId then collectAux seen rest
    else
      match seedOf p with
      | some s => s :: collectAux (p.postId :: seen) rest
      | none => collectAux (p.postId :: seen) rest

/-- The Collector: seed records of one scrape pass, in listing order. -/
def collectSeeds (posts : List Post) : List Seed :=
  collectAux [] posts

/-- First-occurrence deduplication of posts by `postId` (reference
formulation used to state what the collection loop keeps). -/
def dedupFirstAux : List String → List Post → List Post
  | _, [] => []
  | seen, p :: rest =>
    if seen.contains p.postId then dedupFirstAux seen rest
    else p :: dedupFirstAux (p.postId :: seen) rest

/-- First-occurrence deduplication by `postId` starting from no seen ids. -/
def dedupFirst (posts : List Post) : List Post :=
  dedupFirstAux [] posts

/-! ### Record and list helper lemmas -/

theorem lookupF_setField_self (l : List (String × String)) (k v : String) :
    lookupF (setField l k v) k = some v := by
  induction l with
  | nil => simp [setField, lookupF]
  | cons p rest ih =>
    obtain ⟨k', v'⟩ := p
    by_cases h : k' = k
    · simp [setField, lookupF, h]
    · simp [setField, lookupF, h, ih]

theorem lookupF_setField_ne (l : List (String × String)) (k k' v : String)
    (h : k ≠ k') : lookupF (setField l k v) k' = lookupF l k' := by
  induction l with
  | nil => simp [setField, lookupF, h]
  | cons p rest ih =>
    obtain ⟨k0, v0⟩ := p
    by_cases h0 : k0 = k
    · subst h0
      simp [setField, lookupF, h]
    · simp [setField, lookupF, h0, ih]

theorem get_set_self (r : Record) (k v d : String) : (r.set k v).get k d = v := by
  simp [Record.get, Record.set, lookupF_setField_self]

theorem get_set_ne (r : Record) (k k' v d : String) (h : k ≠ k') :
    (r.set k v).get k' d = r.get k' d := by
  simp [Record.get, Record.set, lookupF_setField_ne _ _ _ _ h]

theorem get_updateStatus_es (r : Record) (st ts d : String) :
    (updateStatus r st ts).get "email_sent" d = st := by
  rw [updateStatus, get_set_ne _ _ _ _ _ (by decide), get_set_self]

theorem get_updateStatus_esa (r : Record) (st ts d : String) :
    (updateStatus r st ts).get "email_sent_at" d = ts := by
  rw [updateStatus, get_set_self]

theorem get_updateStatus_other (r : Record) (st ts d f : String)
    (h1 : f ≠ "email_sent") (h2 : f ≠ "email_sent_at") :
    (updateStatus r st ts).get f d = r.get f d := by
  rw [updateStatus, get_set_ne _ _ _ _ _ (fun h => h2 h.symm),
    get_set_ne _ _ _ _ _ (fun h => h1 h.symm)]

theorem get_fill (fns : List String) (r : Record) (f : String) :
    (fillRow fns r).get f "" = r.get f "" := by
  induction fns generalizing r with
  | nil => rfl
  | cons g rest ih =>
    show (List.foldl _ (if (lookupF r.fields g).isSome then r else r.set g "") rest).get f ""
        = r.get f ""
    rw [show (List.foldl (fun r f => if (lookupF r.fields f).isSome then r else r.set f "")
        (if (lookupF r.fields g).isSome then r else r.set g "") rest)
        = fillRow rest (if (lookupF r.fields g).isSome then r else r.set g "") from rfl, ih]
    by_cases hp : (lookupF r.fields g).isSome
    · simp [hp]
    · simp only [hp, if_neg, Bool.false_eq_true, not_false_eq_true, if_false]
      by_cases hf : f = g
      · subst hf
        rw [get_set_self]
        simp only [Record.get]
        cases hl : lookupF r.fields f
        · rfl
        · exact absurd (by simp [hl]) hp
      · rw [get_set_ne _ _ _ _ _ (fun h => hf h.symm)]

theorem get_projectTo (fns : List String) (r : Record) (f : String) :
    (projectTo fns r).get f "" = if fns.contains f then r.get f "" else "" := by
  induction fns with
  | nil => simp [projectTo, Record.get, lookupF, List.contains]
  | cons g rest ih =>
    by_cases h : g = f
    · subst h
      simp [projectTo, Record.get, lookupF, List.contains_cons]
    · have : (projectTo (g :: rest) r).get f "" = (projectTo rest r).get f "" := by
        simp [projectTo, Record.get, lookupF, h]
      rw [this, ih]
      simp [List.contains_cons, h, Ne.symm h]

theorem projectTo_congr (fns : List String) (r r' : Record)
    (h : ∀ f, r.get f "" = r'.get f "") : projectTo fns r = projectTo fns r' := by
  simp only [projectTo]
  congr 1
  exact List.map_congr_left (fun f _ => by rw [h f])

theorem projectTo_fill (fns gns : List String) (r : Record) :
    projectTo fns (fillRow gns r) = projectTo fns r :=
  projectTo_congr _ _ _ (fun f => get_fill gns r f)

theorem getD_of_le {α : Type} (l : List α) (i : Nat) (d : α) (h : l.length ≤ i) :
    l.getD i d = d := by
  induction l generalizing i with
  | nil => cases i <;> rfl
  | cons a rest ih =>
    cases i with
    | zero => exact absurd h (by simp)
    | succ n => exact ih n (by simpa using h)

theorem getD_set_self {α : Type} (l : List α) (i : Nat) (a d : α) (h : i < l.length) :
    (l.set i a).getD i d = a := by
  induction l generalizing i with
  | nil => exact absurd h (by simp)
  | cons b rest ih =>
    cases i with
    | zero => rfl
    | succ n => exact ih n (by simpa using h)

theorem getD_set_ne {α : Type} (l : List α) (i j : Nat) (a d : α) (h : i ≠ j) :
    (l.set i a).getD j d = l.getD j d := by
  induction l generalizing i j with
  | nil => cases i <;> rfl
  | cons b rest ih =>
    cases i with
    | zero =>
      cases j with
      | zero => exact absurd rfl h
      | succ m => rfl
    | succ n =>
      cases j with
      | zero => rfl
      | succ m => exact ih n m (fun hc => h (by rw [hc]))

theorem getD_map_rec (f : Record → Record) (l : List Record) (i : Nat)
    (h : i < l.length) : (l.map f).getD i rec0 = f (l.getD i rec0) := by
  induction l generalizing i with
  | nil => exact absurd h (by simp)
  | cons a rest ih =>
    cases i with
    | zero => rfl
    | succ n => exact ih n (by simpa using h)

/-! ### Properties of the eligibility filter -/

theorem filterRows_snd_length (timeF : Nat → String) (k : Nat) (rows : List Record) :
    (filterRows timeF k rows).2.length = rows.length := by
  induction rows generalizing k with
  | nil => rfl
  | cons r rest ih =>
    by_cases h1 : trimS (r.get "email" "") = "" <;>
      by_cases h2 : lowerS (trimS (r.get "email_sent" "")) = "sent" <;>
      by_cases h3 : isInvalidEmail (trimS (r.get "email" "")) = true <;>
      simp [filterRows, h1, h2, h3, ih]

theorem filterRows_snd_getD (timeF : Nat → String) (k : Nat) (rows : List Record)
    (j : Nat) (hj : j < rows.length) :
    (filterRows timeF k rows).2.getD j rec0 =
      (if skipB (rows.getD j rec0) then
        updateStatus (rows.getD j rec0) "skipped" (timeF (k + j))
      else rows.getD j rec0) := by
  induction rows generalizing k j with
  | nil => exact absurd hj (by simp)
  | cons r rest ih =>
    by_cases h1 : trimS (r.get "email" "") = "" <;>
      by_cases h2 : lowerS (trimS (r.get "email_sent" "")) = "sent" <;>
      by_cases h3 : isInvalidEmail (trimS (r.get "email" "")) = true <;>
      cases j with
      | zero => simp [filterRows, skipB, h1, h2, h3]
      | succ n =>
        have hn : n < rest.length := by simpa using hj
        have harith : k + (n + 1) = (k + 1) + n := by omega
        have hstep : (filterRows timeF k (r :: rest)).2.getD (n + 1) rec0
            = (filterRows timeF (k + 1) rest).2.getD n rec0 := by
          simp [filterRows, h1, h2, h3]
        rw [hstep, List.getD_cons_succ, harith]
        exact ih (k + 1) n hn

theorem filterRows_fst_mem (timeF : Nat → String) (k : Nat) (rows : List Record)
    (i : Nat) (r : Record) :
    (i, r) ∈ (filterRows timeF k rows).1 ↔
      ∃ j, j < rows.length ∧ i = k + j ∧ rows.getD j rec0 = r ∧ eligibleB r = true := by
  induction rows generalizing k with
  | nil => simp [filterRows]
  | cons r0 rest ih =>
    have shift : (∃ j, j < rest.length ∧ i = (k + 1) + j ∧ rest.getD j rec0 = r ∧
        eligibleB r = true) ↔
        (∃ j, 0 < j ∧ j < rest.length + 1 ∧ i = k + j ∧
          (r0 :: rest).getD j rec0 = r ∧ eligibleB r = true) := by
      constructor
      · rintro ⟨j, hj, hi, hr, he⟩
        exact ⟨j + 1, by omega, by omega, by omega, by simpa using hr, he⟩
      · rintro ⟨j, hj0, hj, hi, hr, he⟩
        obtain ⟨j', rfl⟩ : ∃ j', j = j' + 1 := ⟨j - 1, by omega⟩
        exact ⟨j', by omega, by omega, by simpa using hr, he⟩
    have skipCase : ∀ _hne : eligibleB r0 = false,
        ∀ _hstep : (filterRows timeF k (r0 :: rest)).1
          = (filterRows timeF (k + 1) rest).1,
        ((i, r) ∈ (filterRows timeF k (r0 :: rest)).1 ↔
          ∃ j, j < (r0 :: rest).length ∧ i = k + j ∧
            (r0 :: rest).getD j rec0 = r ∧ eligibleB r = true) := by
      intro hne hstep
      rw [hstep, ih (k + 1), shift]
      constructor
      · rintro ⟨j, hj0, hj, hi, hr, he⟩
        exact ⟨j, by simpa using hj, hi, hr, he⟩
      · rintro ⟨j, hj, hi, hr, he⟩
        cases j with
        | zero =>
          simp only [List.getD_cons_zero] at hr
          rw [hr] at hne
          rw [hne] at he
          exact absurd he (by simp)
        | succ n => exact ⟨n + 1, by omega, by simpa using hj, hi, hr, he⟩
    by_cases h1 : trimS (r0.get "email" "") = ""
    · exact skipCase (by simp [eligibleB, h1]) (by simp [filterRows, h1])
    by_cases h2 : lowerS (trimS (r0.get "email_sent" "")) = "sent"
    · exact skipCase (by simp [eligibleB, h1, h2]) (by simp [filterRows, h1, h2])
    by_cases h3 : isInvalidEmail (trimS (r0.get "email" "")) = true
    · exact skipCase (by simp [eligibleB, h1, h2, h3]) (by simp [filterRows, h1, h2, h3])
    ·
        -- eligible head: the pair is either the head or comes from the tail
        have helig : eligibleB r0 = true := by simp [eligibleB, h1, h2, h3]
        have hstep : (filterRows timeF k (r0 :: rest)).1
            = (k, r0) :: (filterRows timeF (k + 1) rest).1 := by
          simp [filterRows, h1, h2, h3]
        rw [hstep]
        simp only [List.mem_cons, ih (k + 1), shift]
        constructor
        · rintro (heq | ⟨j, hj0, hj, hi, hr, he⟩)
          · injection heq with hi hr
            exact ⟨0, by simp, by omega, by simp [hr], by rw [hr]; exact helig⟩
          · exact ⟨j, by simpa using hj, hi, hr, he⟩
        · rintro ⟨j, hj, hi, hr, he⟩
          cases j with
          | zero =>
            left
            simp only [List.getD_cons_zero] at hr
            rw [Prod.mk.injEq]
            exact ⟨by omega, hr.symm⟩
          | succ n =>
            right
            exact ⟨n + 1, by omega, by simpa using hj, hi, hr, he⟩

theorem filterRows_fst_ge (timeF : Nat → String) (k : Nat) (rows : List Record) :
    ∀ p ∈ (filterRows timeF k rows).1, k ≤ p.1 := by
  rintro ⟨i, r⟩ hp
  rw [filterRows_fst_mem] at hp
  obtain ⟨j, _, hi, _, _⟩ := hp
  omega

theorem filterRows_fst_pairwise (timeF : Nat → String) (k : Nat) (rows : List Record) :
    ((filterRows timeF k rows).1.map Prod.fst).Pairwise (· < ·) := by
  induction rows generalizing k with
  | nil => simp [filterRows]
  | cons r rest ih =>
    by_cases h1 : trimS (r.get "email" "") = ""
    · have hstep : (filterRows timeF k (r :: rest)).1
          = (filterRows timeF (k + 1) rest).1 := by simp [filterRows, h1]
      rw [hstep]; exact ih (k + 1)
    by_cases h2 : lowerS (trimS (r.get "email_sent" "")) = "sent"
    · have hstep : (filterRows timeF k (r :: rest)).1
          = (filterRows timeF (k + 1) rest).1 := by simp [filterRows, h1, h2]
      rw [hstep]; exact ih (k + 1)
    by_cases h3 : isInvalidEmail (trimS (r.get "email" "")) = true
    · have hstep : (filterRows timeF k (r :: rest)).1
          = (filterRows timeF (k + 1) rest).1 := by simp [filterRows, h1, h2, h3]
      rw [hstep]; exact ih (k + 1)
    · have hstep : (filterRows timeF k (r :: rest)).1
          = (k, r) :: (filterRows timeF (k + 1) rest).1 := by simp [filterRows, h1, h2, h3]
      rw [hstep, List.map_cons]
      refine List.Pairwise.cons ?_ (ih (k + 1))
      intro x hx
      simp only [List.mem_map] at hx
      obtain ⟨p, hp, rfl⟩ := hx
      have := filterRows_fst_ge timeF (k + 1) rest p hp
      omega

theorem filterRows_fst_nodup (timeF : Nat → String) (k : Nat) (rows : List Record) :
    ((filterRows timeF k rows).1.map Prod.fst).Nodup :=
  (filterRows_fst_pairwise timeF k rows).imp (fun h => Nat.ne_of_lt h)

/-! ### Properties of the send loop -/

theorem getD_mem_pair (l : List (Nat × Record)) (m : Nat) (h : m < l.length) :
    l.getD m (0, rec0) ∈ l := by
  induction l generalizing m with
  | nil => exact absurd h (by simp)
  | cons p rest ih =>
    cases m with
    | zero => simp
    | succ n => exact List.mem_cons_of_mem _ (ih n (by simpa using h))

theorem stepRows_length (transport : Nat → Bool) (timeS : Nat → String)
    (fns : List String) (k ri : Nat) (rows : List Record) :
    (stepRows transport timeS fns k ri rows).length = rows.length := by
  simp [stepRows]

theorem stepRows_getD_ne (transport : Nat → Bool) (timeS : Nat → String)
    (fns : List String) (k ri : Nat) (rows : List Record) (i : Nat) (hne : i ≠ ri)
    (fld : String) :
    ((stepRows transport timeS fns k ri rows).getD i rec0).get fld ""
      = ((rows.getD i rec0).get fld "") := by
  by_cases hi : i < rows.length
  · rw [stepRows, getD_map_rec _ _ _ (by simpa using hi), get_fill,
      getD_set_ne _ _ _ _ _ (fun h => hne h.symm)]
  · rw [getD_of_le _ _ _ (by rw [stepRows_length]; omega), getD_of_le _ _ _ (by omega)]

theorem stepRows_getD_frame (transport : Nat → Bool) (timeS : Nat → String)
    (fns : List String) (k ri : Nat) (rows : List Record) (i : Nat) (fld : String)
    (h1 : fld ≠ "email_sent") (h2 : fld ≠ "email_sent_at") :
    ((stepRows transport timeS fns k ri rows).getD i rec0).get fld ""
      = ((rows.getD i rec0).get fld "") := by
  by_cases hne : i = ri
  · subst hne
    by_cases hi : i < rows.length
    · rw [stepRows, getD_map_rec _ _ _ (by simpa using hi), get_fill,
        getD_set_self _ _ _ _ hi, get_updateStatus_other _ _ _ _ _ h1 h2]
    · rw [getD_of_le _ _ _ (by rw [stepRows_length]; omega), getD_of_le _ _ _ (by omega)]
  · exact stepRows_getD_ne _ _ _ _ _ _ _ hne _

theorem stepRows_getD_self (transport : Nat → Bool) (timeS : Nat → String)
    (fns : List String) (k ri : Nat) (rows : List Record) (hi : ri < rows.length) :
    (stepRows transport timeS fns k ri rows).getD ri rec0
      = fillRow fns (updateStatus (rows.getD ri rec0)
          (if transport k then "sent" else "failed") (timeS k)) := by
  rw [stepRows, getD_map_rec _ _ _ (by simpa using hi), getD_set_self _ _ _ _ hi]

theorem sendLoop_writes_length (tpl fe : String) (tm : Bool) (te : String)
    (transport : Nat → Bool) (timeS : Nat → String) (fns : List String)
    (ts : List (Nat × Record)) : ∀ (k : Nat) (rows : List Record),
    (sendLoop tpl fe tm te transport timeS fns k rows ts).writes.length = ts.length := by
  induction ts with
  | nil => intro k rows; rfl
  | cons p rest ih =>
    intro k rows
    obtain ⟨ri, pr⟩ := p
    simp [sendLoop, ih]

theorem sendLoop_sent_length (tpl fe : String) (tm : Bool) (te : String)
    (transport : Nat → Bool) (timeS : Nat → String) (fns : List String)
    (ts : List (Nat × Record)) : ∀ (k : Nat) (rows : List Record),
    (sendLoop tpl fe tm te transport timeS fns k rows ts).sent.length = ts.length := by
  induction ts with
  | nil => intro k rows; rfl
  | cons p rest ih =>
    intro k rows
    obtain ⟨ri, pr⟩ := p
    simp [sendLoop, ih]

theorem sendLoop_rows_length (tpl fe : String) (tm : Bool) (te : String)
    (transport : Nat → Bool) (timeS : Nat → String) (fns : List String)
    (ts : List (Nat × Record)) : ∀ (k : Nat) (rows : List Record),
    (sendLoop tpl fe tm te transport timeS fns k rows ts).rows.length = rows.length := by
  induction ts with
  | nil => intro k rows; rfl
  | cons p rest ih =>
    intro k rows
    obtain ⟨ri, pr⟩ := p
    simp only [sendLoop]
    rw [ih (k + 1) (stepRows transport timeS fns k ri rows), stepRows_length]

theorem sendLoop_write_length (tpl fe : String) (tm : Bool) (te : String)
    (transport : Nat → Bool) (timeS : Nat → String) (fns : List String)
    (ts : List (Nat × Record)) : ∀ (k : Nat) (rows : List Record),
    ∀ w ∈ (sendLoop tpl fe tm te transport timeS fns k rows ts).writes,
      w.length = rows.length := by
  induction ts with
  | nil => intro k rows w hw; exact absurd hw (by simp [sendLoop])
  | cons p rest ih =>
    intro k rows w hw
    obtain ⟨ri, pr⟩ := p
    simp only [sendLoop, List.mem_cons] at hw
    rcases hw with rfl | hw
    · rw [List.length_map, stepRows_length]
    · rw [ih (k + 1) _ w hw, stepRows_length]

theorem sendLoop_rows_untouched (tpl fe : String) (tm : Bool) (te : String)
    (transport : Nat → Bool) (timeS : Nat → String) (fns : List String)
    (ts : List (Nat × Record)) : ∀ (k : Nat) (rows : List Record) (i : Nat),
    i ∉ ts.map Prod.fst → ∀ fld,
    (((sendLoop tpl fe tm te transport timeS fns k rows ts).rows.getD i rec0).get fld "")
      = ((rows.getD i rec0).get fld "") := by
  induction ts with
  | nil => intro k rows i _ fld; rfl
  | cons p rest ih =>
    intro k rows i hni fld
    obtain ⟨ri, pr⟩ := p
    simp only [List.map_cons, List.mem_cons] at hni
    push_neg at hni
    simp only [sendLoop]
    rw [ih (k + 1) _ i hni.2 fld, stepRows_getD_ne _ _ _ _ _ _ _ hni.1 _]

theorem sendLoop_rows_frame (tpl fe : String) (tm : Bool) (te : String)
    (transport : Nat → Bool) (timeS : Nat → String) (fns : List String)
    (ts : List (Nat × Record)) : ∀ (k : Nat) (rows : List Record) (i : Nat) (fld : String),
    fld ≠ "email_sent" → fld ≠ "email_sent_at" →
    (((sendLoop tpl fe tm te transport timeS fns k rows ts).rows.getD i rec0).get fld "")
      = ((rows.getD i rec0).get fld "") := by
  induction ts with
  | nil => intro k rows i fld _ _; rfl
  | cons p rest ih =>
    intro k rows i fld h1 h2
    obtain ⟨ri, pr⟩ := p
    simp only [sendLoop]
    rw [ih (k + 1) _ i fld h1 h2, stepRows_getD_frame _ _ _ _ _ _ _ _ h1 h2]

theorem sendLoop_cons_writes (tpl fe : String) (tm : Bool) (te : String)
    (transport : Nat → Bool) (timeS : Nat → String) (fns : List String)
    (k ri : Nat) (pr : Record) (rest : List (Nat × Record)) (rows : List Record) :
    (sendLoop tpl fe tm te transport timeS fns k rows ((ri, pr) :: rest)).writes
      = (stepRows transport timeS fns k ri rows).map (projectTo fns)
        :: (sendLoop tpl fe tm te transport timeS fns (k + 1)
            (stepRows transport timeS fns k ri rows) rest).writes := by
  simp [sendLoop]

theorem sendLoop_cons_sent (tpl fe : String) (tm : Bool) (te : String)
    (transport : Nat → Bool) (timeS : Nat → String) (fns : List String)
    (k ri : Nat) (pr : Record) (rest : List (Nat × Record)) (rows : List Record) :
    (sendLoop tpl fe tm te transport timeS fns k rows ((ri, pr) :: rest)).sent
      = mkSendParams tpl fe tm te (rows.getD ri rec0)
        :: (sendLoop tpl fe tm te transport timeS fns (k + 1)
            (stepRows transport timeS fns k ri rows) rest).sent := by
  simp [sendLoop]

theorem mem_map_take_imp {α β : Type} (f : α → β) (l : List α) (n : Nat) (x : β)
    (h : x ∈ (l.take n).map f) : x ∈ l.map f := by
  rw [List.map_take] at h
  exact List.take_subset _ _ h

theorem sendLoop_write_untouched (tpl fe : String) (tm : Bool) (te : String)
    (transport : Nat → Bool) (timeS : Nat → String) (fns : List String)
    (ts : List (Nat × Record)) : ∀ (k : Nat) (rows : List Record) (j : Nat),
    j < ts.length → ∀ i, i < rows.length → i ∉ (ts.take (j + 1)).map Prod.fst →
    (((sendLoop tpl fe tm te transport timeS fns k rows ts).writes.getD j []).getD i rec0)
      = projectTo fns (rows.getD i rec0) := by
  induction ts with
  | nil => intro k rows j hj; exact absurd hj (by simp)
  | cons p rest ih =>
    intro k rows j hj i hi hni
    obtain ⟨ri, pr⟩ := p
    rw [sendLoop_cons_writes]
    cases j with
    | zero =>
      have hii : i ≠ ri := by
        intro h
        exact hni (by simp [List.take_succ_cons, h])
      rw [List.getD_cons_zero, getD_map_rec _ _ _ (by rw [stepRows_length]; exact hi)]
      exact projectTo_congr _ _ _ (fun f => stepRows_getD_ne _ _ _ _ _ _ _ hii f)
    | succ n =>
      simp only [List.take_succ_cons, List.map_cons, List.mem_cons] at hni
      push_neg at hni
      rw [List.getD_cons_succ,
        ih (k + 1) _ n (by simpa using hj) i (by rw [stepRows_length]; exact hi) hni.2]
      exact projectTo_congr _ _ _ (fun f => stepRows_getD_ne _ _ _ _ _ _ _ hni.1 f)

theorem get_proj_upd_es (fns : List String) (hes : fns.contains "email_sent" = true)
    (r : Record) (st t : String) :
    (projectTo fns (updateStatus r st t)).get "email_sent" "" = st := by
  rw [get_projectTo, hes]
  simp [get_updateStatus_es]

theorem get_proj_upd_esa (fns : List String) (hesa : fns.contains "email_sent_at" = true)
    (r : Record) (st t : String) :
    (projectTo fns (updateStatus r st t)).get "email_sent_at" "" = t := by
  rw [get_projectTo, hesa]
  simp [get_updateStatus_esa]

theorem sendLoop_write_attempted (tpl fe : String) (tm : Bool) (te : String)
    (transport : Nat → Bool) (timeS : Nat → String) (fns : List String)
    (hes : fns.contains "email_sent" = true) (hesa : fns.contains "email_sent_at" = true)
    (ts : List (Nat × Record)) : ∀ (k : Nat) (rows : List Record),
    (ts.map Prod.fst).Nodup → (∀ p ∈ ts, p.1 < rows.length) →
    ∀ (j : Nat), j < ts.length → ∀ (m : Nat), m ≤ j →
    ((((sendLoop tpl fe tm te transport timeS fns k rows ts).writes.getD j []).getD
        (ts.getD m (0, rec0)).1 rec0).get "email_sent" ""
      = (if transport (k + m) then "sent" else "failed"))
    ∧ ((((sendLoop tpl fe tm te transport timeS fns k rows ts).writes.getD j []).getD
        (ts.getD m (0, rec0)).1 rec0).get "email_sent_at" ""
      = timeS (k + m)) := by
  induction ts with
  | nil => intro k rows _ _ j hj; exact absurd hj (by simp)
  | cons p rest ih =>
    intro k rows hnd hbd j hj m hm
    obtain ⟨ri, pr⟩ := p
    have hri : ri < rows.length := hbd (ri, pr) (by simp)
    rw [List.map_cons, List.nodup_cons] at hnd
    rw [sendLoop_cons_writes]
    cases j with
    | zero =>
      have hm0 : m = 0 := by omega
      subst hm0
      rw [List.getD_cons_zero, List.getD_cons_zero,
        getD_map_rec _ _ _ (by rw [stepRows_length]; exact hri),
        stepRows_getD_self _ _ _ _ _ _ hri, projectTo_fill, Nat.add_zero]
      exact ⟨get_proj_upd_es _ hes _ _ _, get_proj_upd_esa _ hesa _ _ _⟩
    | succ n =>
      have hjn : n < rest.length := by simpa using hj
      rw [List.getD_cons_succ]
      cases m with
      | zero =>
        have hnotin : ri ∉ (rest.take (n + 1)).map Prod.fst :=
          fun h => hnd.1 (mem_map_take_imp _ _ _ _ h)
        rw [List.getD_cons_zero,
          sendLoop_write_untouched tpl fe tm te transport timeS fns rest (k + 1) _ n hjn ri
            (by rw [stepRows_length]; exact hri) hnotin,
          stepRows_getD_self _ _ _ _ _ _ hri, projectTo_fill, Nat.add_zero]
        exact ⟨get_proj_upd_es _ hes _ _ _, get_proj_upd_esa _ hesa _ _ _⟩
      | succ m' =>
        have hbd2 : ∀ p ∈ rest, p.1 < (stepRows transport timeS fns k ri rows).length := by
          intro p hp
          rw [stepRows_length]
          exact hbd p (List.mem_cons_of_mem _ hp)
        have harith : k + (m' + 1) = (k + 1) + m' := by omega
        rw [List.getD_cons_succ, harith]
        exact ih (k + 1) _ hnd.2 hbd2 n hjn m' (by omega)

theorem sendLoop_write_frame (tpl fe : String) (tm : Bool) (te : String)
    (transport : Nat → Bool) (timeS : Nat → String) (fns : List String)
    (ts : List (Nat × Record)) : ∀ (k : Nat) (rows : List Record) (j : Nat),
    j < ts.length → ∀ i, i < rows.length → ∀ fld,
    fld ≠ "email_sent" → fld ≠ "email_sent_at" →
    ((((sendLoop tpl fe tm te transport timeS fns k rows ts).writes.getD j []).getD i rec0).get fld "")
      = (if fns.contains fld then (rows.getD i rec0).get fld "" else "") := by
  induction ts with
  | nil => intro k rows j hj; exact absurd hj (by simp)
  | cons p rest ih =>
    intro k rows j hj i hi fld h1 h2
    obtain ⟨ri, pr⟩ := p
    rw [sendLoop_cons_writes]
    cases j with
    | zero =>
      rw [List.getD_cons_zero, getD_map_rec _ _ _ (by rw [stepRows_length]; exact hi),
        get_projectTo, stepRows_getD_frame _ _ _ _ _ _ _ _ h1 h2]
    | succ n =>
      rw [List.getD_cons_succ,
        ih (k + 1) _ n (by simpa using hj) i (by rw [stepRows_length]; exact hi) fld h1 h2,
        stepRows_getD_frame _ _ _ _ _ _ _ _ h1 h2]

theorem sendLoop_sent_getD (tpl fe : String) (tm : Bool) (te : String)
    (transport : Nat → Bool) (timeS : Nat → String) (fns : List String)
    (ts : List (Nat × Record)) : ∀ (k : Nat) (rows : List Record),
    (ts.map Prod.fst).Nodup → ∀ (m : Nat), m < ts.length →
    ((sendLoop tpl fe tm te transport timeS fns k rows ts).sent.getD m mp0).toAddrs
      = [if tm then te else ((rows.getD (ts.getD m (0, rec0)).1 rec0).get "email" "")] := by
  induction ts with
  | nil => intro k rows _ m hm; exact absurd hm (by simp)
  | cons p rest ih =>
    intro k rows hnd m hm
    obtain ⟨ri, pr⟩ := p
    rw [List.map_cons, List.nodup_cons] at hnd
    rw [sendLoop_cons_sent]
    cases m with
    | zero =>
      rw [List.getD_cons_zero, List.getD_cons_zero]
      rfl
    | succ m' =>
      have hm' : m' < rest.length := by simpa using hm
      have hne : (rest.getD m' (0, rec0)).1 ≠ ri := by
        intro h
        refine hnd.1 ?_
        rw [← h]
        exact List.mem_map.mpr ⟨rest.getD m' (0, rec0), getD_mem_pair rest m' hm', rfl⟩
      rw [List.getD_cons_succ, List.getD_cons_succ, ih (k + 1) _ hnd.2 m' hm',
        stepRows_getD_ne _ _ _ _ _ _ _ hne _]

/-! ### Process-level bridging lemmas -/

theorem process_toSend_eq (tpl fe : String) (tm : Bool) (te : String)
    (header : List String) (limit : Option Nat) (transport : Nat → Bool)
    (timeF timeS : Nat → String) (rows : List Record) :
    (process_csv tpl fe tm te header limit transport timeF timeS rows).toSend
      = (filterRows timeF 0 rows).1 := rfl

theorem process_rowsAfterFilter_eq (tpl fe : String) (tm : Bool) (te : String)
    (header : List String) (limit : Option Nat) (transport : Nat → Bool)
    (timeF timeS : Nat → String) (rows : List Record) :
    (process_csv tpl fe tm te header limit transport timeF timeS rows).rowsAfterFilter
      = (filterRows timeF 0 rows).2 := rfl

theorem process_attempts_eq (tpl fe : String) (tm : Bool) (te : String)
    (header : List String) (limit : Option Nat) (transport : Nat → Bool)
    (timeF timeS : Nat → String) (rows : List Record) :
    (process_csv tpl fe tm te header limit transport timeF timeS rows).attempts
      = (match limit with
        | none => (filterRows timeF 0 rows).1
        | some n => if 0 < n && n < (filterRows timeF 0 rows).1.length
            then (filterRows timeF 0 rows).1.take n
            else (filterRows timeF 0 rows).1) := rfl

theorem process_writes_eq (tpl fe : String) (tm : Bool) (te : String)
    (header : List String) (limit : Option Nat) (transport : Nat → Bool)
    (timeF timeS : Nat → String) (rows : List Record) :
    (process_csv tpl fe tm te header limit transport timeF timeS rows).writes
      = (sendLoop tpl fe tm te transport timeS (mkFieldnames header) 0
          (filterRows timeF 0 rows).2
          (process_csv tpl fe tm te header limit transport timeF timeS rows).attempts).writes := rfl

theorem process_finalRows_eq (tpl fe : String) (tm : Bool) (te : String)
    (header : List String) (limit : Option Nat) (transport : Nat → Bool)
    (timeF timeS : Nat → String) (rows : List Record) :
    (process_csv tpl fe tm te header limit transport timeF timeS rows).finalRows
      = (sendLoop tpl fe tm te transport timeS (mkFieldnames header) 0
          (filterRows timeF 0 rows).2
          (process_csv tpl fe tm te header limit transport timeF timeS rows).attempts).rows := rfl

theorem process_sent_eq (tpl fe : String) (tm : Bool) (te : String)
    (header : List String) (limit : Option Nat) (transport : Nat → Bool)
    (timeF timeS : Nat → String) (rows : List Record) :
    (process_csv tpl fe tm te header limit transport timeF timeS rows).sent
      = (sendLoop tpl fe tm te transport timeS (mkFieldnames header) 0
          (filterRows timeF 0 rows).2
          (process_csv tpl fe tm te header limit transport timeF timeS rows).attempts).sent := rfl

theorem process_attempts_sub (tpl fe : String) (tm : Bool) (te : String)
    (header : List String) (limit : Option Nat) (transport : Nat → Bool)
    (timeF timeS : Nat → String) (rows : List Record) :
    ∀ p ∈ (process_csv tpl fe tm te header limit transport timeF timeS rows).attempts,
      p ∈ (process_csv tpl fe tm te header limit transport timeF timeS rows).toSend := by
  intro p hp
  rw [process_attempts_eq] at hp
  rw [process_toSend_eq]
  cases limit with
  | none => exact hp
  | some n =>
    dsimp only at hp
    by_cases hc : 0 < n && n < (filterRows timeF 0 rows).1.length
    · rw [if_pos hc] at hp
      exact List.take_subset _ _ hp
    · rwa [if_neg hc] at hp

theorem process_toSend_mem (tpl fe : String) (tm : Bool) (te : String)
    (header : List String) (limit : Option Nat) (transport : Nat → Bool)
    (timeF timeS : Nat → String) (rows : List Record) (i : Nat) (r : Record) :
    (i, r) ∈ (process_csv tpl fe tm te header limit transport timeF timeS rows).toSend ↔
      i < rows.length ∧ rows.getD i rec0 = r ∧ eligibleB r = true := by
  rw [process_toSend_eq, filterRows_fst_mem]
  constructor
  · rintro ⟨j, hj, hij, hr, he⟩
    refine ⟨by omega, ?_, he⟩
    rw [show i = j from by omega]
    exact hr
  · rintro ⟨hi, hr, he⟩
    exact ⟨i, hi, by omega, hr, he⟩

theorem process_attempts_nodup (tpl fe : String) (tm : Bool) (te : String)
    (header : List String) (limit : Option Nat) (transport : Nat → Bool)
    (timeF timeS : Nat → String) (rows : List Record) :
    ((process_csv tpl fe tm te header limit transport timeF timeS rows).attempts.map
      Prod.fst).Nodup := by
  rw [process_attempts_eq]
  have hnd := filterRows_fst_nodup timeF 0 rows
  cases limit with
  | none => exact hnd
  | some n =>
    dsimp only
    by_cases hc : 0 < n && n < (filterRows timeF 0 rows).1.length
    · rw [if_pos hc, List.map_take]
      exact hnd.sublist (List.take_sublist _ _)
    · rwa [if_neg hc]

theorem process_attempts_bound (tpl fe : String) (tm : Bool) (te : String)
    (header : List String) (limit : Option Nat) (transport : Nat → Bool)
    (timeF timeS : Nat → String) (rows : List Record) :
    ∀ p ∈ (process_csv tpl fe tm te header limit transport timeF timeS rows).attempts,
      p.1 < rows.length := by
  rintro ⟨i, r⟩ hp
  have := (process_toSend_mem tpl fe tm te header limit transport timeF timeS rows i r).1
    (process_attempts_sub tpl fe tm te header limit transport timeF timeS rows _ hp)
  exact this.1

theorem eligibleB_props (r : Record) (h : eligibleB r = true) :
    trimS (r.get "email" "") ≠ "" ∧ lowerS (trimS (r.get "email_sent" "")) ≠ "sent"
    ∧ isInvalidEmail (trimS (r.get "email" "")) = false := by
  simp only [eligibleB, Bool.and_eq_true, decide_eq_true_eq, Bool.not_eq_true'] at h
  exact ⟨h.1.1, h.1.2, h.2⟩

theorem eligibleB_intro (r : Record) (h1 : trimS (r.get "email" "") ≠ "")
    (h2 : lowerS (trimS (r.get "email_sent" "")) ≠ "sent")
    (h3 : isInvalidEmail (trimS (r.get "email" "")) = false) : eligibleB r = true := by
  simp only [eligibleB, Bool.and_eq_true, decide_eq_true_eq, Bool.not_eq_true']
  exact ⟨⟨h1, h2⟩, h3⟩

theorem skipB_false_of_sent (r : Record)
    (h : lowerS (trimS (r.get "email_sent" "")) = "sent") : skipB r = false := by
  simp [skipB, h]

theorem skipB_true_intro (r : Record) (h1 : trimS (r.get "email" "") ≠ "")
    (h2 : lowerS (trimS (r.get "email_sent" "")) ≠ "sent")
    (h3 : isInvalidEmail (trimS (r.get "email" "")) = true) : skipB r = true := by
  simp [skipB, h1, h2, h3]

theorem mkFieldnames_contains_es (header : List String) :
    (mkFieldnames header).contains "email_sent" = true := by
  by_cases h : header.contains "email_sent" = true <;>
    simp_all [mkFieldnames, List.elem_iff]

theorem mkFieldnames_contains_esa (header : List String) :
    (mkFieldnames header).contains "email_sent_at" = true := by
  by_cases h : header.contains "email_sent" = true <;>
    by_cases h2 : (header ++ if header.contains "email_sent" = true then []
      else ["email_sent"]).contains "email_sent_at" = true <;>
    simp_all [mkFieldnames, List.elem_iff]

theorem mkFieldnames_contains_of_header (header : List String) (fld : String)
    (h : fld ∈ header) : (mkFieldnames header).contains fld = true := by
  simp [mkFieldnames, List.elem_iff, h]

/-! ### Concrete records used by witnesses and counterexamples -/

/-- A row already delivered (`email_sent = sent`). -/
def recSent : Record := ⟨[("email", "a@b.co"), ("email_sent", "sent")]⟩

/-- A row whose email is on the delivery denylist. -/
def recBad : Record := ⟨[("email", "test@example.com")]⟩

/-- A fresh, eligible row. -/
def recJane : Record := ⟨[("name", "Acme"), ("maker_name", "Jane Doe"),
  ("source", "hackernews"), ("email", "jane@acme.io")]⟩

/-- A row whose previous attempt failed. -/
def recFailed : Record := ⟨[("name", "Beta"), ("email", "jane@acme.io"),
  ("email_sent", "failed")]⟩

/-! ### Claims C1, C2, C10 -/

/-- C1: for every stored row whose `email_sent` reads as `sent`, every run of
the Delivery State Machine excludes it from the eligibility filter (it is in
no `toSend` pair and its index is never attempted, whatever the cap), and its
`email_sent` / `email_sent_at` values survive the run unchanged, both in the
in-memory row set and in every snapshot persisted after a send attempt: once
sent, the record is terminal. -/
theorem C1_sent_is_terminal
    (tpl fe : String) (tm : Bool) (te : String) (header : List String)
    (limit : Option Nat) (transport : Nat → Bool) (timeF timeS : Nat → String)
    (rows : List Record) (i : Nat) (hi : i < rows.length)
    (hsent : lowerS (trimS ((rows.getD i rec0).get "email_sent" "")) = "sent") :
    (∀ r, (i, r) ∉ (process_csv tpl fe tm te header limit transport timeF timeS rows).toSend)
    ∧ i ∉ ((process_csv tpl fe tm te header limit transport timeF timeS rows).attempts.map
        Prod.fst)
    ∧ (((process_csv tpl fe tm te header limit transport timeF timeS rows).finalRows.getD
        i rec0).get "email_sent" "" = ((rows.getD i rec0).get "email_sent" ""))
    ∧ (((process_csv tpl fe tm te header limit transport timeF timeS rows).finalRows.getD
        i rec0).get "email_sent_at" "" = ((rows.getD i rec0).get "email_sent_at" ""))
    ∧ (∀ j, j < (process_csv tpl fe tm te header limit transport timeF timeS rows).writes.length →
        ((((process_csv tpl fe tm te header limit transport timeF timeS rows).writes.getD
          j []).getD i rec0).get "email_sent" "" = ((rows.getD i rec0).get "email_sent" ""))) := by
  have hnotTS : ∀ r,
      (i, r) ∉ (process_csv tpl fe tm te header limit transport timeF timeS rows).toSend := by
    intro r hmem
    obtain ⟨_, hr, he⟩ :=
      (process_toSend_mem tpl fe tm te header limit transport timeF timeS rows i r).1 hmem
    have hne := (eligibleB_props r he).2.1
    rw [← hr] at hne
    exact hne hsent
  have hnotAtt : i ∉ ((process_csv tpl fe tm te header limit transport timeF timeS
      rows).attempts.map Prod.fst) := by
    intro hmem
    rw [List.mem_map] at hmem
    obtain ⟨⟨i', r⟩, hp, hpi⟩ := hmem
    have hpi' : i' = i := hpi
    subst hpi'
    exact hnotTS r (process_attempts_sub tpl fe tm te header limit transport timeF timeS rows _ hp)
  have hRA : (filterRows timeF 0 rows).2.getD i rec0 = rows.getD i rec0 := by
    rw [filterRows_snd_getD timeF 0 rows i hi, skipB_false_of_sent _ hsent]
    simp
  have hfr2len : (filterRows timeF 0 rows).2.length = rows.length :=
    filterRows_snd_length _ _ _
  have hfin : ∀ fld,
      (((process_csv tpl fe tm te header limit transport timeF timeS rows).finalRows.getD
        i rec0).get fld "") = ((rows.getD i rec0).get fld "") := by
    intro fld
    rw [process_finalRows_eq,
      sendLoop_rows_untouched tpl fe tm te transport timeS (mkFieldnames header) _ 0 _ i
        hnotAtt fld, hRA]
  refine ⟨hnotTS, hnotAtt, hfin _, hfin _, ?_⟩
  intro j hj
  have hjlen : j < (process_csv tpl fe tm te header limit transport timeF timeS
      rows).attempts.length := by
    rw [process_writes_eq, sendLoop_writes_length] at hj
    exact hj
  have hnotake : i ∉ (((process_csv tpl fe tm te header limit transport timeF timeS
      rows).attempts.take (j + 1)).map Prod.fst) :=
    fun hmem => hnotAtt (mem_map_take_imp _ _ _ _ hmem)
  rw [process_writes_eq,
    sendLoop_write_untouched tpl fe tm te transport timeS (mkFieldnames header) _ 0 _ j hjlen i
      (by rw [hfr2len]; exact hi) hnotake,
    get_projectTo, mkFieldnames_contains_es]
  rw [if_pos rfl, hRA]

/-- C1 witness: a two-row store whose first row is already `sent`, run
end-to-end: the sent row is not attempted and keeps `email_sent = sent`. -/
theorem C1_witness :
    lowerS (trimS (([recSent, recJane].getD 0 rec0).get "email_sent" "")) = "sent"
    ∧ 0 ∉ ((process_csv "x" "f@f.co" false "t@t.co" ["email", "name"] none (fun _ => true)
        (fun _ => "F") (fun _ => "S") [recSent, recJane]).attempts.map Prod.fst)
    ∧ ((process_csv "x" "f@f.co" false "t@t.co" ["email", "name"] none (fun _ => true)
        (fun _ => "F") (fun _ => "S") [recSent, recJane]).finalRows.getD 0 rec0).get
        "email_sent" "" = "sent" := by
  have h := C1_sent_is_terminal "x" "f@f.co" false "t@t.co" ["email", "name"] none
    (fun _ => true) (fun _ => "F") (fun _ => "S") [recSent, recJane] 0 (by decide) (by decide)
  exact ⟨by decide, h.2.1, h.2.2.1.trans (by decide)⟩

/-- C2: the eligibility filter attempts exactly the rows with a non-empty
email, an `email_sent` other than `sent` and an email off the denylist (in a
run without a cap); a not-yet-sent row with non-empty denylisted email is
marked `skipped` with the filter timestamp in memory and never attempted in
any run; a row in state `failed` with a valid email is attempted again. -/
theorem C2_eligibility_filter
    (tpl fe : String) (tm : Bool) (te : String) (header : List String)
    (transport : Nat → Bool) (timeF timeS : Nat → String)
    (rows : List Record) (i : Nat) (hi : i < rows.length) :
    ((i ∈ ((process_csv tpl fe tm te header none transport timeF timeS rows).attempts.map
        Prod.fst))
      ↔ (trimS ((rows.getD i rec0).get "email" "") ≠ ""
          ∧ lowerS (trimS ((rows.getD i rec0).get "email_sent" "")) ≠ "sent"
          ∧ isInvalidEmail (trimS ((rows.getD i rec0).get "email" "")) = false))
    ∧ (∀ limit, trimS ((rows.getD i rec0).get "email" "") ≠ "" →
        lowerS (trimS ((rows.getD i rec0).get "email_sent" "")) ≠ "sent" →
        isInvalidEmail (trimS ((rows.getD i rec0).get "email" "")) = true →
        ((process_csv tpl fe tm te header limit transport timeF timeS
            rows).rowsAfterFilter.getD i rec0
          = updateStatus (rows.getD i rec0) "skipped" (timeF i))
        ∧ i ∉ ((process_csv tpl fe tm te header limit transport timeF timeS
            rows).attempts.map Prod.fst))
    ∧ (trimS ((rows.getD i rec0).get "email" "") ≠ "" →
        lowerS (trimS ((rows.getD i rec0).get "email_sent" "")) = "failed" →
        isInvalidEmail (trimS ((rows.getD i rec0).get "email" "")) = false →
        i ∈ ((process_csv tpl fe tm te header none transport timeF timeS rows).attempts.map
          Prod.fst)) := by
  have hae : (process_csv tpl fe tm te header none transport timeF timeS rows).attempts
      = (process_csv tpl fe tm te header none transport timeF timeS rows).toSend := rfl
  have hmain : (i ∈ ((process_csv tpl fe tm te header none transport timeF timeS
      rows).attempts.map Prod.fst))
      ↔ (trimS ((rows.getD i rec0).get "email" "") ≠ ""
          ∧ lowerS (trimS ((rows.getD i rec0).get "email_sent" "")) ≠ "sent"
          ∧ isInvalidEmail (trimS ((rows.getD i rec0).get "email" "")) = false) := by
    rw [hae]
    constructor
    · intro hmem
      rw [List.mem_map] at hmem
      obtain ⟨⟨i', r⟩, hp, hpi⟩ := hmem
      have hpi2 : i = i' := Eq.symm hpi
      subst hpi2
      obtain ⟨_, hr, he⟩ :=
        (process_toSend_mem tpl fe tm te header none transport timeF timeS rows i r).1 hp
      rw [← hr] at he
      exact eligibleB_props _ he
    · rintro ⟨h1, h2, h3⟩
      refine List.mem_map.mpr ⟨(i, rows.getD i rec0), ?_, rfl⟩
      exact (process_toSend_mem tpl fe tm te header none transport timeF timeS rows i
        (rows.getD i rec0)).2 ⟨hi, rfl, eligibleB_intro _ h1 h2 h3⟩
  refine ⟨hmain, ?_, ?_⟩
  · intro limit h1 h2 h3
    constructor
    · rw [process_rowsAfterFilter_eq, filterRows_snd_getD timeF 0 rows i hi,
        skipB_true_intro _ h1 h2 h3]
      simp
    · intro hmem
      rw [List.mem_map] at hmem
      obtain ⟨⟨i', r⟩, hp, hpi⟩ := hmem
      have hpi2 : i = i' := Eq.symm hpi
      subst hpi2
      obtain ⟨_, hr, he⟩ :=
        (process_toSend_mem tpl fe tm te header limit transport timeF timeS rows i r).1
          (process_attempts_sub tpl fe tm te header limit transport timeF timeS rows _ hp)
      rw [← hr] at he
      rw [(eligibleB_props _ he).2.2] at h3
      exact absurd h3 (by simp)
  · intro h1 h2 h3
    refine hmain.2 ⟨h1, ?_, h3⟩
    rw [h2]
    decide

/-- C2 witness: three rows — already sent, denylisted, previously failed —
run without a cap: exactly the failed row is attempted, and the denylisted
row is marked `skipped` in memory with the filter timestamp. -/
theorem C2_witness :
    (1 ∉ ((process_csv "x" "f@f.co" false "t@t.co" ["email", "name"] none (fun _ => true)
        (fun _ => "F") (fun _ => "S") [recSent, recBad, recFailed]).attempts.map Prod.fst))
    ∧ ((process_csv "x" "f@f.co" false "t@t.co" ["email", "name"] none (fun _ => true)
        (fun _ => "F") (fun _ => "S") [recSent, recBad, recFailed]).rowsAfterFilter.getD
        1 rec0 = updateStatus recBad "skipped" "F")
    ∧ (2 ∈ ((process_csv "x" "f@f.co" false "t@t.co" ["email", "name"] none (fun _ => true)
        (fun _ => "F") (fun _ => "S") [recSent, recBad, recFailed]).attempts.map Prod.fst)) := by
  have hb := C2_eligibility_filter "x" "f@f.co" false "t@t.co" ["email", "name"]
    (fun _ => true) (fun _ => "F") (fun _ => "S") [recSent, recBad, recFailed] 1 (by decide)
  have hf := C2_eligibility_filter "x" "f@f.co" false "t@t.co" ["email", "name"]
    (fun _ => true) (fun _ => "F") (fun _ => "S") [recSent, recBad, recFailed] 2 (by decide)
  obtain ⟨hskip, hnot⟩ := hb.2.1 none (by decide) (by decide) (by decide)
  exact ⟨hnot, hskip, hf.2.2 (by decide) (by decide) (by decide)⟩

/-- C10: when the eligibility filter leaves zero records to send, the run
makes no attempt and performs no write to the store at all, so the
`skipped` marks set in memory during filtering are not persisted. -/
theorem C10_no_write_when_none_eligible
    (tpl fe : String) (tm : Bool) (te : String) (header : List String)
    (limit : Option Nat) (transport : Nat → Bool) (timeF timeS : Nat → String)
    (rows : List Record)
    (h : (process_csv tpl fe tm te header limit transport timeF timeS rows).toSend = []) :
    (process_csv tpl fe tm te header limit transport timeF timeS rows).attempts = []
    ∧ (process_csv tpl fe tm te header limit transport timeF timeS rows).writes = [] := by
  have hts : (filterRows timeF 0 rows).1 = [] := h
  have hatt : (process_csv tpl fe tm te header limit transport timeF timeS rows).attempts
      = [] := by
    rw [process_attempts_eq]
    cases limit with
    | none => exact hts
    | some n =>
      dsimp only
      rw [hts]
      simp
  refine ⟨hatt, ?_⟩
  rw [process_writes_eq, hatt]
  rfl

/-- C10 witness: a store holding one sent row and one denylisted row — the
filter leaves nothing to send; the run performs no write even though the
denylisted row was marked `skipped` in memory. -/
theorem C10_witness :
    (process_csv "x" "f@f.co" false "t@t.co" ["email"] none (fun _ => true)
      (fun _ => "F") (fun _ => "S") [recSent, recBad]).toSend = []
    ∧ ((process_csv "x" "f@f.co" false "t@t.co" ["email"] none (fun _ => true)
      (fun _ => "F") (fun _ => "S") [recSent, recBad]).rowsAfterFilter.getD 1 rec0).get
      "email_sent" "" = "skipped"
    ∧ (process_csv "x" "f@f.co" false "t@t.co" ["email"] none (fun _ => true)
      (fun _ => "F") (fun _ => "S") [recSent, recBad]).writes = [] :=
  ⟨by decide, by decide,
    (C10_no_write_when_none_eligible "x" "f@f.co" false "t@t.co" ["email"] none
      (fun _ => true) (fun _ => "F") (fun _ => "S") [recSent, recBad] (by decide)).2⟩

/-! ### Further bridging lemmas for C3, C5, C8 -/

theorem getD_mem_gen {α : Type} (l : List α) (m : Nat) (d : α) (h : m < l.length) :
    l.getD m d ∈ l := by
  induction l generalizing m with
  | nil => exact absurd h (by simp)
  | cons a rest ih =>
    cases m with
    | zero => simp
    | succ n => exact List.mem_cons_of_mem _ (ih n (by simpa using h))

theorem filterRows_snd_frame (timeF : Nat → String) (rows : List Record) (i : Nat)
    (fld : String) (h1 : fld ≠ "email_sent") (h2 : fld ≠ "email_sent_at") :
    ((filterRows timeF 0 rows).2.getD i rec0).get fld ""
      = ((rows.getD i rec0).get fld "") := by
  by_cases hi : i < rows.length
  · rw [filterRows_snd_getD timeF 0 rows i hi]
    by_cases hs : skipB (rows.getD i rec0) = true
    · rw [if_pos hs, get_updateStatus_other _ _ _ _ _ h1 h2]
    · rw [if_neg hs]
  · rw [getD_of_le _ _ _ (by rw [filterRows_snd_length]; omega),
      getD_of_le _ _ _ (by omega)]

theorem skipB_false_of_eligible (r : Record) (h : eligibleB r = true) :
    skipB r = false := by
  have h3 := (eligibleB_props r h).2.2
  simp [skipB, h3]

theorem nodup_getD_not_mem_take (l : List (Nat × Record)) :
    ∀ (t m : Nat), (l.map Prod.fst).Nodup → t ≤ m → m < l.length →
    (l.getD m (0, rec0)).1 ∉ ((l.take t).map Prod.fst) := by
  induction l with
  | nil => intro t m _ _ hm; exact absurd hm (by simp)
  | cons p rest ih =>
    intro t m hnd htm hm hmem
    rw [List.map_cons, List.nodup_cons] at hnd
    cases t with
    | zero => simp at hmem
    | succ t' =>
      cases m with
      | zero => omega
      | succ m' =>
        rw [List.getD_cons_succ] at hmem
        rw [List.take_succ_cons, List.map_cons, List.mem_cons] at hmem
        rcases hmem with heq | hmem'
        · refine hnd.1 ?_
          rw [← heq]
          exact List.mem_map.mpr
            ⟨rest.getD m' (0, rec0), getD_mem_pair rest m' (by simpa using hm), rfl⟩
        · exact ih t' m' hnd.2 (by omega) (by simpa using hm) hmem'

theorem process_attempted_eligible (tpl fe : String) (tm : Bool) (te : String)
    (header : List String) (limit : Option Nat) (transport : Nat → Bool)
    (timeF timeS : Nat → String) (rows : List Record)
    (p : Nat × Record)
    (hp : p ∈ (process_csv tpl fe tm te header limit transport timeF timeS rows).attempts) :
    p.1 < rows.length ∧ rows.getD p.1 rec0 = p.2 ∧ eligibleB p.2 = true :=
  (process_toSend_mem tpl fe tm te header limit transport timeF timeS rows p.1 p.2).1
    (process_attempts_sub tpl fe tm te header limit transport timeF timeS rows p hp)

theorem process_sent_recipient (tpl fe : String) (tm : Bool) (te : String)
    (header : List String) (limit : Option Nat) (transport : Nat → Bool)
    (timeF timeS : Nat → String) (rows : List Record) (m : Nat)
    (hm : m < (process_csv tpl fe tm te header limit transport timeF timeS rows).sent.length) :
    ((process_csv tpl fe tm te header limit transport timeF timeS rows).sent.getD m mp0).toAddrs
      = [if tm then te
         else ((rows.getD ((process_csv tpl fe tm te header limit transport timeF timeS
             rows).attempts.getD m (0, rec0)).1 rec0).get "email" "")] := by
  have hmlen : m < (process_csv tpl fe tm te header limit transport timeF timeS
      rows).attempts.length := by
    rw [process_sent_eq, sendLoop_sent_length] at hm
    exact hm
  rw [process_sent_eq,
    sendLoop_sent_getD tpl fe tm te transport timeS (mkFieldnames header) _ 0 _
      (process_attempts_nodup tpl fe tm te header limit transport timeF timeS rows) m hmlen,
    filterRows_snd_frame timeF rows _ "email" (by decide) (by decide)]

/-! ### Claims C3, C5, C8 -/

/-- C3: for every run, one snapshot of the whole row set is persisted per
send attempt, success or failure alike (a transport error never halts the
loop); in the `j`-th persisted snapshot every already-attempted row `m ≤ j`
carries `sent`/`failed` according to the transport outcome of attempt `m`
together with that attempt's timestamp, while every not-yet-attempted row
`m > j` is persisted exactly as the original store holds it — so an
interruption after attempt `k` leaves attempts `0..k` with correct statuses
and the rest untouched. -/
theorem C3_writeback_and_crash_safety
    (tpl fe : String) (tm : Bool) (te : String) (header : List String)
    (limit : Option Nat) (transport : Nat → Bool) (timeF timeS : Nat → String)
    (rows : List Record) :
    ((process_csv tpl fe tm te header limit transport timeF timeS rows).writes.length
      = (process_csv tpl fe tm te header limit transport timeF timeS rows).attempts.length)
    ∧ (∀ j, j < (process_csv tpl fe tm te header limit transport timeF timeS
          rows).attempts.length → ∀ m, m ≤ j →
        ((((process_csv tpl fe tm te header limit transport timeF timeS rows).writes.getD
            j []).getD ((process_csv tpl fe tm te header limit transport timeF timeS
            rows).attempts.getD m (0, rec0)).1 rec0).get "email_sent" ""
          = (if transport m then "sent" else "failed"))
        ∧ ((((process_csv tpl fe tm te header limit transport timeF timeS rows).writes.getD
            j []).getD ((process_csv tpl fe tm te header limit transport timeF timeS
            rows).attempts.getD m (0, rec0)).1 rec0).get "email_sent_at" "" = timeS m))
    ∧ (∀ j, j < (process_csv tpl fe tm te header limit transport timeF timeS
          rows).attempts.length → ∀ m, j < m →
        m < (process_csv tpl fe tm te header limit transport timeF timeS
          rows).attempts.length →
        (((process_csv tpl fe tm te header limit transport timeF timeS rows).writes.getD
            j []).getD ((process_csv tpl fe tm te header limit transport timeF timeS
            rows).attempts.getD m (0, rec0)).1 rec0)
          = projectTo (mkFieldnames header)
              (rows.getD ((process_csv tpl fe tm te header limit transport timeF timeS
                rows).attempts.getD m (0, rec0)).1 rec0)) := by
  have hnd := process_attempts_nodup tpl fe tm te header limit transport timeF timeS rows
  have hbd : ∀ p ∈ (process_csv tpl fe tm te header limit transport timeF timeS
      rows).attempts, p.1 < (filterRows timeF 0 rows).2.length := by
    intro p hp
    rw [filterRows_snd_length]
    exact process_attempts_bound tpl fe tm te header limit transport timeF timeS rows p hp
  refine ⟨by rw [process_writes_eq, sendLoop_writes_length], ?_, ?_⟩
  · intro j hj m hm
    have h := sendLoop_write_attempted tpl fe tm te transport timeS (mkFieldnames header)
      (mkFieldnames_contains_es header) (mkFieldnames_contains_esa header) _ 0 _ hnd hbd
      j hj m hm
    rw [Nat.zero_add] at h
    rw [process_writes_eq]
    exact h
  · intro j hj m hjm hm
    have hp := getD_mem_pair _ m hm
    obtain ⟨hlt, hr, he⟩ := process_attempted_eligible tpl fe tm te header limit transport
      timeF timeS rows _ hp
    have hnotin := nodup_getD_not_mem_take _ (j + 1) m hnd (by omega) hm
    have hRA : (filterRows timeF 0 rows).2.getD
        ((process_csv tpl fe tm te header limit transport timeF timeS rows).attempts.getD
          m (0, rec0)).1 rec0
        = rows.getD ((process_csv tpl fe tm te header limit transport timeF timeS
            rows).attempts.getD m (0, rec0)).1 rec0 := by
      rw [filterRows_snd_getD timeF 0 rows _ hlt, hr, skipB_false_of_eligible _ he]
      simp [hr]
    rw [process_writes_eq,
      sendLoop_write_untouched tpl fe tm te transport timeS (mkFieldnames header) _ 0 _
        j hj _ (by rw [filterRows_snd_length]; exact hlt) hnotin, hRA]

/-- C3 witness: two eligible rows, first attempt succeeds and second fails;
there are two persisted snapshots, the second snapshot carries `sent` on row
0 and `failed` on row 1, and the first snapshot still holds row 1 exactly as
the original store does. -/
theorem C3_witness :
    ((process_csv "x" "f@f.co" false "t@t.co" ["email", "name"] none (fun k => k == 0)
      (fun _ => "F") (fun k => if k == 0 then "S0" else "S1") [recJane, recFailed]).writes.length
      = 2)
    ∧ ((((process_csv "x" "f@f.co" false "t@t.co" ["email", "name"] none (fun k => k == 0)
      (fun _ => "F") (fun k => if k == 0 then "S0" else "S1")
      [recJane, recFailed]).writes.getD 1 []).getD 0 rec0).get "email_sent" "" = "sent")
    ∧ ((((process_csv "x" "f@f.co" false "t@t.co" ["email", "name"] none (fun k => k == 0)
      (fun _ => "F") (fun k => if k == 0 then "S0" else "S1")
      [recJane, recFailed]).writes.getD 1 []).getD 1 rec0).get "email_sent" "" = "failed")
    ∧ ((((process_csv "x" "f@f.co" false "t@t.co" ["email", "name"] none (fun k => k == 0)
      (fun _ => "F") (fun k => if k == 0 then "S0" else "S1")
      [recJane, recFailed]).writes.getD 0 []).getD 1 rec0)
        = projectTo (mkFieldnames ["email", "name"]) recFailed) := by
  have h := C3_writeback_and_crash_safety "x" "f@f.co" false "t@t.co" ["email", "name"]
    none (fun k => k == 0) (fun _ => "F") (fun k => if k == 0 then "S0" else "S1")
    [recJane, recFailed]
  have h10 := (h.2.1 1 (by decide) 0 (by decide)).1
  have h11 := (h.2.1 1 (by decide) 1 (by decide)).1
  have h01 := h.2.2 0 (by decide) 1 (by decide) (by decide)
  rw [show ((process_csv "x" "f@f.co" false "t@t.co" ["email", "name"] none (fun k => k == 0)
    (fun _ => "F") (fun k => if k == 0 then "S0" else "S1")
    [recJane, recFailed]).attempts.getD 0 (0, rec0)).1 = 0 from by decide] at h10
  rw [show ((process_csv "x" "f@f.co" false "t@t.co" ["email", "name"] none (fun k => k == 0)
    (fun _ => "F") (fun k => if k == 0 then "S0" else "S1")
    [recJane, recFailed]).attempts.getD 1 (0, rec0)).1 = 1 from by decide] at h11 h01
  rw [show ([recJane, recFailed].getD 1 rec0) = recFailed from by decide] at h01
  exact ⟨h.1.trans (by decide), h10.trans (by decide), h11.trans (by decide), h01⟩

/-- C8: the Delivery State Machine writes only `email_sent` and
`email_sent_at`: every other field of every row keeps its original value in
the in-memory row set after the run, and every header column other than the
two status fields is persisted verbatim in every snapshot; in test mode
every transport request is addressed to the test address (the rows' own
`email` fields being covered by the frame property). -/
theorem C8_frame_only_status_fields
    (tpl fe : String) (tm : Bool) (te : String) (header : List String)
    (limit : Option Nat) (transport : Nat → Bool) (timeF timeS : Nat → String)
    (rows : List Record) (i : Nat) (fld : String)
    (h1 : fld ≠ "email_sent") (h2 : fld ≠ "email_sent_at") :
    (((process_csv tpl fe tm te header limit transport timeF timeS rows).finalRows.getD
        i rec0).get fld "" = ((rows.getD i rec0).get fld ""))
    ∧ (fld ∈ header →
        ∀ j, j < (process_csv tpl fe tm te header limit transport timeF timeS
          rows).writes.length →
        ((((process_csv tpl fe tm te header limit transport timeF timeS rows).writes.getD
          j []).getD i rec0).get fld "" = ((rows.getD i rec0).get fld "")))
    ∧ (tm = true → ∀ m, m < (process_csv tpl fe tm te header limit transport timeF timeS
          rows).sent.length →
        ((process_csv tpl fe tm te header limit transport timeF timeS rows).sent.getD
          m mp0).toAddrs = [te]) := by
  refine ⟨?_, ?_, ?_⟩
  · rw [process_finalRows_eq,
      sendLoop_rows_frame tpl fe tm te transport timeS (mkFieldnames header) _ 0 _ i fld h1 h2,
      filterRows_snd_frame timeF rows i fld h1 h2]
  · intro hhd j hj
    have hjlen : j < (process_csv tpl fe tm te header limit transport timeF timeS
        rows).attempts.length := by
      rw [process_writes_eq, sendLoop_writes_length] at hj
      exact hj
    by_cases hi : i < rows.length
    · rw [process_writes_eq,
        sendLoop_write_frame tpl fe tm te transport timeS (mkFieldnames header) _ 0 _ j
          hjlen i (by rw [filterRows_snd_length]; exact hi) fld h1 h2,
        mkFieldnames_contains_of_header header fld hhd, if_pos rfl,
        filterRows_snd_frame timeF rows i fld h1 h2]
    · have hw : ((process_csv tpl fe tm te header limit transport timeF timeS
          rows).writes.getD j []).length = rows.length := by
        rw [process_writes_eq]
        rw [← filterRows_snd_length timeF 0 rows]
        exact sendLoop_write_length tpl fe tm te transport timeS (mkFieldnames header) _ 0 _
          _ (getD_mem_gen _ j [] (by rw [sendLoop_writes_length]; exact hjlen))
      rw [getD_of_le _ _ _ (by rw [hw]; omega), getD_of_le _ _ _ (by omega)]
  · intro htm m hm
    rw [process_sent_recipient tpl fe tm te header limit transport timeF timeS rows m hm,
      htm]
    simp

/-- C8 witness: a test-mode run over one eligible row: the transport request
goes to the test address while the row's own `email` and `name` fields are
unchanged in memory and in the persisted snapshot. -/
theorem C8_witness :
    (((process_csv "x" "f@f.co" true "t@t.co" ["email", "name"] none (fun _ => true)
      (fun _ => "F") (fun _ => "S") [recJane]).finalRows.getD 0 rec0).get "email" ""
      = "jane@acme.io")
    ∧ ((((process_csv "x" "f@f.co" true "t@t.co" ["email", "name"] none (fun _ => true)
      (fun _ => "F") (fun _ => "S") [recJane]).writes.getD 0 []).getD 0 rec0).get "email" ""
      = "jane@acme.io")
    ∧ (((process_csv "x" "f@f.co" true "t@t.co" ["email", "name"] none (fun _ => true)
      (fun _ => "F") (fun _ => "S") [recJane]).sent.getD 0 mp0).toAddrs = ["t@t.co"]) := by
  have h := C8_frame_only_status_fields "x" "f@f.co" true "t@t.co" ["email", "name"] none
    (fun _ => true) (fun _ => "F") (fun _ => "S") [recJane] 0 "email" (by decide) (by decide)
  exact ⟨h.1.trans (by decide),
    (h.2.1 (by decide) 0 (by decide)).trans (by decide),
    h.2.2 rfl 0 (by decide)⟩

/-- C5: `test@example.com` is rejected by the extraction denylist while
`info@footer.email` passes it, but both are on the delivery denylist, so no
run ever attempts a row holding either address and no production transport
request is addressed to either; `jane@acme.io` passes both denylists and a
not-yet-sent row holding it is attempted. -/
theorem C5_denylist_correctness :
    (keepRegexEmail "test@example.com" = false)
    ∧ (keepRegexEmail "info@footer.email" = true)
    ∧ (isInvalidEmail "test@example.com" = true)
    ∧ (isInvalidEmail "info@footer.email" = true)
    ∧ (keepRegexEmail "jane@acme.io" = true)
    ∧ (isInvalidEmail "jane@acme.io" = false)
    ∧ (∀ (tpl fe : String) (tm : Bool) (te : String) (header : List String)
        (limit : Option Nat) (transport : Nat → Bool) (timeF timeS : Nat → String)
        (rows : List Record) (p : Nat × Record),
        p ∈ (process_csv tpl fe tm te header limit transport timeF timeS rows).attempts →
          trimS (p.2.get "email" "") ≠ "test@example.com"
          ∧ trimS (p.2.get "email" "") ≠ "info@footer.email")
    ∧ (∀ (tpl fe te : String) (header : List String) (limit : Option Nat)
        (transport : Nat → Bool) (timeF timeS : Nat → String) (rows : List Record)
        (m : Nat),
        m < (process_csv tpl fe false te header limit transport timeF timeS
          rows).sent.length →
          ((process_csv tpl fe false te header limit transport timeF timeS rows).sent.getD
            m mp0).toAddrs ≠ ["test@example.com"]
          ∧ ((process_csv tpl fe false te header limit transport timeF timeS rows).sent.getD
            m mp0).toAddrs ≠ ["info@footer.email"])
    ∧ (∀ (tpl fe : String) (tm : Bool) (te : String) (header : List String)
        (transport : Nat → Bool) (timeF timeS : Nat → String) (rows : List Record)
        (i : Nat), i < rows.length →
        (rows.getD i rec0).get "email" "" = "jane@acme.io" →
        lowerS (trimS ((rows.getD i rec0).get "email_sent" "")) ≠ "sent" →
        i ∈ ((process_csv tpl fe tm te header none transport timeF timeS rows).attempts.map
          Prod.fst)) := by
  refine ⟨by decide, by decide, by decide, by decide, by decide, by decide, ?_, ?_, ?_⟩
  · intro tpl fe tm te header limit transport timeF timeS rows p hp
    have hinv := (process_attempted_eligible tpl fe tm te header limit transport timeF
      timeS rows p hp).2.2
    have hinv2 := (eligibleB_props _ hinv).2.2
    constructor <;> intro heq <;> rw [heq] at hinv2 <;> exact absurd hinv2 (by decide)
  · intro tpl fe te header limit transport timeF timeS rows m hm
    have hrec := process_sent_recipient tpl fe false te header limit transport timeF timeS
      rows m hm
    have hmlen : m < (process_csv tpl fe false te header limit transport timeF timeS
        rows).attempts.length := by
      rw [process_sent_eq, sendLoop_sent_length] at hm
      exact hm
    obtain ⟨hlt, hr, he⟩ := process_attempted_eligible tpl fe false te header limit
      transport timeF timeS rows _ (getD_mem_pair _ m hmlen)
    have hinv2 := (eligibleB_props _ he).2.2
    rw [← hr] at hinv2
    simp only [Bool.false_eq_true, if_false] at hrec
    constructor
    · intro heq
      rw [heq] at hrec
      injection hrec with hx
      rw [← hx] at hinv2
      exact absurd hinv2 (by decide)
    · intro heq
      rw [heq] at hrec
      injection hrec with hx
      rw [← hx] at hinv2
      exact absurd hinv2 (by decide)
  · intro tpl fe tm te header transport timeF timeS rows i hi hmail hsent
    refine List.mem_map.mpr ⟨(i, rows.getD i rec0), ?_, rfl⟩
    refine (process_toSend_mem tpl fe tm te header none transport timeF timeS rows i
      (rows.getD i rec0)).2 ⟨hi, rfl, eligibleB_intro _ ?_ hsent ?_⟩
    · rw [hmail]
      decide
    · rw [hmail]
      decide

/-- C5 witness: a fresh row holding `jane@acme.io` is attempted by an
uncapped run, while the concrete denylist facts are evaluated directly. -/
theorem C5_witness :
    keepRegexEmail "jane@acme.io" = true
    ∧ 0 ∈ ((process_csv "x" "f@f.co" false "t@t.co" ["email", "name"] none (fun _ => true)
        (fun _ => "F") (fun _ => "S") [recJane]).attempts.map Prod.fst) := by
  have h := C5_denylist_correctness
  exact ⟨h.2.2.2.2.1,
    h.2.2.2.2.2.2.2.2 "x" "f@f.co" false "t@t.co" ["email", "name"] (fun _ => true)
      (fun _ => "F") (fun _ => "S") [recJane] 0 (by decide) (by decide) (by decide)⟩

/-! ### Claim C4: template personalization -/

theorem rdropWhile_append_rtake (p : Char → Bool) (l : List Char) :
    l.rdropWhile p ++ l.rtakeWhile p = l := by
  simp only [List.rdropWhile, List.rtakeWhile]
  rw [← List.reverse_append, List.takeWhile_append_dropWhile, List.reverse_reverse]

theorem takeWhile_all_neg (q : Char → Bool) (B : List Char)
    (h : ∀ b ∈ B, q b = false) : List.takeWhile q B = [] := by
  cases B with
  | nil => rfl
  | cons b rest => exact List.takeWhile_cons_of_neg (by simp [h b (by simp)])

theorem dropWhile_prefix_self (p : Char → Bool) (A m : List Char)
    (hpre : A <+: m) (hm : List.dropWhile p m = m) : List.dropWhile p A = A := by
  cases A with
  | nil => rfl
  | cons c A' =>
    obtain ⟨t, ht⟩ := hpre
    have hc : p c = false := by
      by_contra hc
      have hc' : p c = true := by simpa using hc
      rw [← ht, List.cons_append, List.dropWhile_cons_of_pos hc'] at hm
      have hlen := congrArg List.length hm
      have hle := (List.dropWhile_suffix p (l := A' ++ t)).length_le
      simp only [List.length_cons] at hlen
      omega
    rw [List.dropWhile_cons_of_neg (by simp [hc])]

theorem takeWhile_append_all_neg (q : Char → Bool) (A B : List Char)
    (h : ∀ b ∈ B, q b = false) :
    List.takeWhile q (A ++ B) = List.takeWhile q A := by
  rw [List.takeWhile_append]
  by_cases hlen : (List.takeWhile q A).length = A.length
  · rw [if_pos hlen, takeWhile_all_neg q B h, List.append_nil,
      (List.takeWhile_prefix q).eq_of_length hlen]
  · rw [if_neg hlen]

theorem tok_trim (l : List Char) :
    ((trimL l).dropWhile pyWsB).takeWhile (fun c => !pyWsB c)
      = (l.dropWhile pyWsB).takeWhile (fun c => !pyWsB c) := by
  have hm : trimL l = List.rdropWhile pyWsB (l.dropWhile pyWsB) := rfl
  have hAB := rdropWhile_append_rtake pyWsB (l.dropWhile pyWsB)
  have hno : List.dropWhile pyWsB (l.dropWhile pyWsB) = l.dropWhile pyWsB :=
    List.dropWhile_idempotent pyWsB l
  have hdA := dropWhile_prefix_self pyWsB _ _
    (List.rdropWhile_prefix pyWsB (l.dropWhile pyWsB)) hno
  have hq := (congrArg (List.takeWhile fun c => !pyWsB c) hAB.symm).trans
    (takeWhile_append_all_neg _ _ _ (fun b hb => by simp [List.mem_rtakeWhile_imp hb]))
  rw [hm, hdA, ← hq]

theorem extract_first_name_eq (s : String) :
    extract_first_name s
      = (if firstToken s = "" then "there" else firstToken s) := by
  by_cases hs : s = ""
  · subst hs
    decide
  · have hft : firstToken (trimS s) = firstToken s := by
      simp only [firstToken, trimS]
      exact congrArg String.mk (tok_trim s.data)
    unfold extract_first_name
    rw [if_neg hs, hft]

/-- A record whose `name` field is present but holds the empty string. -/
def recNoName : Record :=
  ⟨[("name", ""), ("maker_name", "Jane Doe"), ("source", "hackernews")]⟩

/-- C4 counterexample: for a record whose `name` field is present but empty,
the claim says the product-name substitution falls back to "your product";
`personalize_email` substitutes the empty string instead (the fallback
applies only when the field is absent), and the derived subject shows it. -/
theorem C4_counterexample :
    (recNoName.get "name" "") = ""
    ∧ (personalize_email "\x7b\x7bProductName\x7d\x7d" recNoName).2 = ""
    ∧ (personalize_email "\x7b\x7bProductName\x7d\x7d" recNoName).2 ≠ "your product"
    ∧ (personalize_email "\x7b\x7bProductName\x7d\x7d" recNoName).1
        = "Congrats on launching !" := by
  decide

/-- C4 (amended): `personalize_email` substitutes the three placeholders
with the first whitespace-delimited token of `maker_name` (the generic token
"there" when `maker_name` is empty or all-whitespace), the record's `name`
value — the default "your product" applying only when the `name` field is
absent, not when it is empty —, and the platform label obtained from the
fixed lookup on the lower-cased source tag, falling back to the raw tag for
unknown sources (and to "Product Hunt" when `source` is absent); the
returned subject is derived deterministically from the substituted product
name alone.  The spec's round-trip example holds on a concrete template. -/
theorem C4_personalize_email (template : String) (product : Record) :
    (∃ fn pn lp,
      personalize_email template product
        = ("Congrats on launching " ++ pn ++ "!",
           replaceStr (replaceStr (replaceStr template "\x7b\x7bFirstName\x7d\x7d" fn)
             "\x7b\x7bProductName\x7d\x7d" pn) "\x7b\x7bLaunchPlatform\x7d\x7d" lp)
      ∧ fn = (if firstToken (product.get "maker_name" "") = "" then "there"
              else firstToken (product.get "maker_name" ""))
      ∧ (lookupF product.fields "name" = none → pn = "your product")
      ∧ (∀ v, lookupF product.fields "name" = some v → pn = v)
      ∧ (∀ v, lookupF product.fields "source" = some v →
          lp = (match lookupF platform_names (lowerS v) with
                | some w => w
                | none => v))
      ∧ (lookupF product.fields "source" = none → lp = "Product Hunt"))
    ∧ personalize_email
        "Hi \x7b\x7bFirstName\x7d\x7d, \x7b\x7bProductName\x7d\x7d is on \x7b\x7bLaunchPlatform\x7d\x7d!"
        recJane
      = ("Congrats on launching Acme!", "Hi Jane, Acme is on Hacker News!") := by
  constructor
  · refine ⟨extract_first_name (product.get "maker_name" ""),
      product.get "name" "your product",
      (match lookupF platform_names (lowerS (product.get "source" "Product Hunt")) with
       | some w => w
       | none => product.get "source" "Product Hunt"),
      rfl, extract_first_name_eq _, ?_, ?_, ?_, ?_⟩
    · intro h
      simp [Record.get, h]
    · intro v h
      simp [Record.get, h]
    · intro v h
      simp [Record.get, h]
    · intro h
      simp only [Record.get, h]
      decide
  · decide

/-- C4 witness: the concrete round-trip instance extracted from the amended
theorem. -/
theorem C4_witness :
    personalize_email
      "Hi \x7b\x7bFirstName\x7d\x7d, \x7b\x7bProductName\x7d\x7d is on \x7b\x7bLaunchPlatform\x7d\x7d!"
      recJane = ("Congrats on launching Acme!", "Hi Jane, Acme is on Hacker News!") :=
  (C4_personalize_email "x" recJane).2

/-! ### Claim C6: social-link classification -/

/-- A link qualifying for the `github` slot: github host substring and none
of the excluded path segments. -/
def githubOkB (href : String) : Bool :=
  substrB "github.com/" (lowerS href)
    && !(github_excluded_segments.any (fun x => substrB x (lowerS href)))

theorem socialStep_twitter_ne (acc : SocialAcc) (href : String) (h : acc.twitter ≠ "") :
    (socialStep acc href).twitter = acc.twitter := by
  simp [socialStep, h]
  repeat' split
  all_goals rfl

theorem socialStep_twitter_set (acc : SocialAcc) (href : String)
    (h : acc.twitter = "") (hq : twitterQualB href = true) :
    (socialStep acc href).twitter = href := by
  simp only [twitterQualB, Bool.and_eq_true] at hq
  simp [socialStep, h, hq.1, hq.2]

theorem socialStep_twitter_skip (acc : SocialAcc) (href : String)
    (hq : twitterQualB href = false) :
    (socialStep acc href).twitter = acc.twitter := by
  by_cases hhost : (substrB "twitter.com/" (lowerS href)
      || substrB "x.com/" (lowerS href)) = true
  · have hhouse : (!substrB "/ProductHunt" (lowerS href)
        && !substrB "/producthunt" (lowerS href)) = false := by
      simp only [twitterQualB] at hq
      cases hh : (!substrB "/ProductHunt" (lowerS href)
          && !substrB "/producthunt" (lowerS href))
      · rfl
      · rw [hhost, hh] at hq
        exact absurd hq (by decide)
    by_cases hten : acc.twitter = "" <;>
      (simp [socialStep, hhost, hten, hhouse]
       repeat' split
       all_goals rfl)
  · rw [Bool.not_eq_true] at hhost
    simp [socialStep, hhost]
    repeat' split
    all_goals rfl

theorem twitterQual_nonempty (href : String) (h : twitterQualB href = true) :
    href ≠ "" := by
  intro he
  subst he
  exact absurd h (by decide)

theorem foldl_twitter_ne (links : List String) : ∀ acc : SocialAcc, acc.twitter ≠ "" →
    (links.foldl socialStep acc).twitter = acc.twitter := by
  induction links with
  | nil => intro acc _; rfl
  | cons l rest ih =>
    intro acc h
    rw [List.foldl_cons,
      ih _ (by rw [socialStep_twitter_ne acc l h]; exact h),
      socialStep_twitter_ne acc l h]

theorem foldl_twitter_first (links : List String) : ∀ acc : SocialAcc, acc.twitter = "" →
    (links.foldl socialStep acc).twitter
      = (match links.find? twitterQualB with
         | some l => l
         | none => "") := by
  induction links with
  | nil =>
    intro acc h
    simpa using h
  | cons l rest ih =>
    intro acc h
    rw [List.foldl_cons]
    by_cases hq : twitterQualB l = true
    · have hstep : (socialStep acc l).twitter = l := socialStep_twitter_set acc l h hq
      rw [foldl_twitter_ne rest _ (by rw [hstep]; exact twitterQual_nonempty l hq), hstep,
        List.find?_cons_of_pos _ hq]
    · have hq' : twitterQualB l = false := by
        cases hh : twitterQualB l
        · rfl
        · exact absurd hh hq
      have hstep : (socialStep acc l).twitter = "" := by
        rw [socialStep_twitter_skip acc l hq']
        exact h
      rw [ih _ hstep, List.find?_cons_of_neg _ hq]

theorem socialStep_linkedin_cases (acc : SocialAcc) (href : String) :
    (socialStep acc href).linkedin = acc.linkedin
    ∨ ((socialStep acc href).linkedin = href
        ∧ substrB "linkedin.com/in/" (lowerS href) = true) := by
  simp only [socialStep]
  split
  · split
    · exact Or.inl rfl
    · exact Or.inl rfl
  · split
    · rename_i h2
      rw [Bool.and_eq_true] at h2
      exact Or.inr ⟨rfl, h2.1⟩
    · split
      · split
        · exact Or.inl rfl
        · exact Or.inl rfl
      · split
        · exact Or.inl rfl
        · exact Or.inl rfl

theorem socialStep_github_cases (acc : SocialAcc) (href : String) :
    (socialStep acc href).github = acc.github
    ∨ ((socialStep acc href).github = href ∧ githubOkB href = true) := by
  simp only [socialStep]
  split
  · split
    · exact Or.inl rfl
    · exact Or.inl rfl
  · split
    · exact Or.inl rfl
    · split
      · split
        · rename_i h3 hin
          rw [Bool.and_eq_true] at h3
          refine Or.inr ⟨rfl, ?_⟩
          simp only [githubOkB]
          rw [h3.1, hin]
          rfl
        · exact Or.inl rfl
      · split
        · exact Or.inl rfl
        · exact Or.inl rfl

theorem socialStep_others_cases (acc : SocialAcc) (href : String) :
    (socialStep acc href).others = acc.others
    ∨ (socialStep acc href).others = acc.others ++ [href] := by
  simp only [socialStep]
  split
  · split
    · exact Or.inl rfl
    · exact Or.inl rfl
  · split
    · exact Or.inl rfl
    · split
      · split
        · exact Or.inl rfl
        · exact Or.inl rfl
      · split
        · exact Or.inr rfl
        · exact Or.inl rfl

theorem foldl_linkedin_inv (links : List String) : ∀ acc : SocialAcc,
    (acc.linkedin ≠ "" → substrB "linkedin.com/in/" (lowerS acc.linkedin) = true) →
    ((links.foldl socialStep acc).linkedin ≠ "" →
      substrB "linkedin.com/in/" (lowerS (links.foldl socialStep acc).linkedin) = true) := by
  induction links with
  | nil => intro acc h; exact h
  | cons l rest ih =>
    intro acc hinv
    rw [List.foldl_cons]
    refine ih _ ?_
    intro hne
    rcases socialStep_linkedin_cases acc l with hc | ⟨hc, hok⟩
    · rw [hc] at hne ⊢
      exact hinv hne
    · rw [hc]
      exact hok

theorem foldl_github_inv (links : List String) : ∀ acc : SocialAcc,
    (acc.github ≠ "" → githubOkB acc.github = true) →
    ((links.foldl socialStep acc).github ≠ "" →
      githubOkB (links.foldl socialStep acc).github = true) := by
  induction links with
  | nil => intro acc h; exact h
  | cons l rest ih =>
    intro acc hinv
    rw [List.foldl_cons]
    refine ih _ ?_
    intro hne
    rcases socialStep_github_cases acc l with hc | ⟨hc, hok⟩
    · rw [hc] at hne ⊢
      exact hinv hne
    · rw [hc]
      exact hok

theorem foldl_others_sublist (links : List String) : ∀ acc : SocialAcc,
    ∃ s, List.Sublist s links ∧ (links.foldl socialStep acc).others = acc.others ++ s := by
  induction links with
  | nil => intro acc; exact ⟨[], List.nil_sublist _, by simp⟩
  | cons l rest ih =>
    intro acc
    rw [List.foldl_cons]
    obtain ⟨s, hs, he⟩ := ih (socialStep acc l)
    rcases socialStep_others_cases acc l with hc | hc
    · exact ⟨s, hs.cons l, by rw [he, hc]⟩
    · refine ⟨l :: s, hs.cons₂ l, ?_⟩
      rw [he, hc]
      simp

/-- Host test of the twitter/x branch of the classification chain. -/
def twHostB (l : String) : Bool :=
  substrB "twitter.com/" (lowerS l) || substrB "x.com/" (lowerS l)

/-- Substring test of the linkedin branch. -/
def linkedinSubB (l : String) : Bool :=
  substrB "linkedin.com/in/" (lowerS l)

/-- Host test of the github branch. -/
def githubHostB (l : String) : Bool :=
  substrB "github.com/" (lowerS l)

/-- Membership test of the "other social" branch. -/
def otherAnyB (l : String) : Bool :=
  other_social_hosts.any (fun s => substrB s (lowerS l))

/-- Number of category patterns (twitter/x, linkedin, github, other) that a
link matches; cross-category links are the ones where the source's elif
chain, not the pattern alone, decides the kept category. -/
def linkCategoryCount (l : String) : Nat :=
  (if twHostB l then 1 else 0) + (if linkedinSubB l then 1 else 0)
    + (if githubHostB l then 1 else 0) + (if otherAnyB l then 1 else 0)

theorem crossFree_of_linkedin (l : String) (h : linkCategoryCount l ≤ 1)
    (hs : linkedinSubB l = true) : twHostB l = false := by
  cases ht : twHostB l
  · rfl
  · exfalso
    unfold linkCategoryCount at h
    rw [ht, hs] at h
    simp at h
    omega

theorem crossFree_of_github (l : String) (h : linkCategoryCount l ≤ 1)
    (hs : githubHostB l = true) : twHostB l = false ∧ linkedinSubB l = false := by
  constructor
  · cases ht : twHostB l
    · rfl
    · exfalso
      unfold linkCategoryCount at h
      rw [ht, hs] at h
      simp at h
      omega
  · cases hl : linkedinSubB l
    · rfl
    · exfalso
      unfold linkCategoryCount at h
      rw [hl, hs] at h
      simp at h
      omega

theorem crossFree_of_other (l : String) (h : linkCategoryCount l ≤ 1)
    (hs : otherAnyB l = true) :
    twHostB l = false ∧ linkedinSubB l = false ∧ githubHostB l = false := by
  refine ⟨?_, ?_, ?_⟩
  · cases ht : twHostB l
    · rfl
    · exfalso
      unfold linkCategoryCount at h
      rw [ht, hs] at h
      simp at h
  · cases hl : linkedinSubB l
    · rfl
    · exfalso
      unfold linkCategoryCount at h
      rw [hl, hs] at h
      simp at h
  · cases hg : githubHostB l
    · rfl
    · exfalso
      unfold linkCategoryCount at h
      rw [hg, hs] at h
      simp at h

theorem socialStep_linkedin_ne (acc : SocialAcc) (l : String) (h : acc.linkedin ≠ "") :
    (socialStep acc l).linkedin = acc.linkedin := by
  simp [socialStep, h]
  repeat' split
  all_goals rfl

theorem socialStep_linkedin_skip (acc : SocialAcc) (l : String)
    (hsub : linkedinSubB l = false) :
    (socialStep acc l).linkedin = acc.linkedin := by
  simp only [linkedinSubB] at hsub
  simp [socialStep, hsub]
  repeat' split
  all_goals rfl

theorem socialStep_linkedin_set (acc : SocialAcc) (l : String)
    (htw : twHostB l = false) (hsub : linkedinSubB l = true)
    (hempty : acc.linkedin = "") :
    (socialStep acc l).linkedin = l := by
  simp only [twHostB, Bool.or_eq_false_iff] at htw
  simp only [linkedinSubB] at hsub
  simp [socialStep, htw.1, htw.2, hsub, hempty]

theorem socialStep_github_ne (acc : SocialAcc) (l : String) (h : acc.github ≠ "") :
    (socialStep acc l).github = acc.github := by
  simp [socialStep, h]
  repeat' split
  all_goals rfl

theorem socialStep_github_skip (acc : SocialAcc) (l : String)
    (h : githubOkB l = false) :
    (socialStep acc l).github = acc.github := by
  rw [githubOkB, Bool.and_eq_false_iff] at h
  rcases h with h | h
  · simp [socialStep, h]
    repeat' split
    all_goals rfl
  · have h' : (github_excluded_segments.any (fun x => substrB x (lowerS l))) = true := by
      cases hh : github_excluded_segments.any (fun x => substrB x (lowerS l))
      · rw [hh] at h
        exact absurd h (by decide)
      · rfl
    simp [socialStep, h']
    repeat' split
    all_goals rfl

theorem socialStep_github_set (acc : SocialAcc) (l : String)
    (htw : twHostB l = false) (hlk : linkedinSubB l = false)
    (hok : githubOkB l = true) (hempty : acc.github = "") :
    (socialStep acc l).github = l := by
  simp only [twHostB, Bool.or_eq_false_iff] at htw
  simp only [linkedinSubB] at hlk
  rw [githubOkB, Bool.and_eq_true] at hok
  have hbad : (github_excluded_segments.any (fun x => substrB x (lowerS l))) = false := by
    cases hh : github_excluded_segments.any (fun x => substrB x (lowerS l))
    · rfl
    · rw [hh] at hok
      exact absurd hok.2 (by decide)
  simp [socialStep, htw.1, htw.2, hlk, hok.1, hbad, hempty]

theorem socialStep_others_skip (acc : SocialAcc) (l : String)
    (hot : otherAnyB l = false) :
    (socialStep acc l).others = acc.others := by
  simp only [otherAnyB] at hot
  simp [socialStep, hot]
  repeat' split
  all_goals rfl

theorem socialStep_others_append (acc : SocialAcc) (l : String)
    (htw : twHostB l = false) (hlk : linkedinSubB l = false)
    (hgh : githubHostB l = false) (hot : otherAnyB l = true) :
    (socialStep acc l).others = acc.others ++ [l] := by
  simp only [twHostB, Bool.or_eq_false_iff] at htw
  simp only [linkedinSubB] at hlk
  simp only [githubHostB] at hgh
  simp only [otherAnyB] at hot
  simp [socialStep, htw.1, htw.2, hlk, hgh, hot]

theorem linkedinSub_nonempty (l : String) (h : linkedinSubB l = true) : l ≠ "" := by
  intro he
  subst he
  exact absurd h (by decide)

theorem githubOk_nonempty (l : String) (h : githubOkB l = true) : l ≠ "" := by
  intro he
  subst he
  exact absurd h (by decide)

theorem foldl_linkedin_ne (links : List String) : ∀ acc : SocialAcc, acc.linkedin ≠ "" →
    (links.foldl socialStep acc).linkedin = acc.linkedin := by
  induction links with
  | nil => intro acc _; rfl
  | cons l rest ih =>
    intro acc h
    rw [List.foldl_cons,
      ih _ (by rw [socialStep_linkedin_ne acc l h]; exact h),
      socialStep_linkedin_ne acc l h]

theorem foldl_github_ne (links : List String) : ∀ acc : SocialAcc, acc.github ≠ "" →
    (links.foldl socialStep acc).github = acc.github := by
  induction links with
  | nil => intro acc _; rfl
  | cons l rest ih =>
    intro acc h
    rw [List.foldl_cons,
      ih _ (by rw [socialStep_github_ne acc l h]; exact h),
      socialStep_github_ne acc l h]

theorem foldl_linkedin_first (links : List String)
    (hcross : ∀ l ∈ links, linkCategoryCount l ≤ 1) :
    ∀ acc : SocialAcc, acc.linkedin = "" →
    (links.foldl socialStep acc).linkedin
      = (match links.find? linkedinSubB with
         | some l => l
         | none => "") := by
  induction links with
  | nil =>
    intro acc h
    simpa using h
  | cons l rest ih =>
    intro acc h
    rw [List.foldl_cons]
    by_cases hq : linkedinSubB l = true
    · have htw := crossFree_of_linkedin l (hcross l (by simp)) hq
      have hstep : (socialStep acc l).linkedin = l :=
        socialStep_linkedin_set acc l htw hq h
      rw [foldl_linkedin_ne rest _ (by rw [hstep]; exact linkedinSub_nonempty l hq), hstep,
        List.find?_cons_of_pos _ hq]
    · have hq' : linkedinSubB l = false := by
        cases hh : linkedinSubB l
        · rfl
        · exact absurd hh hq
      have hstep : (socialStep acc l).linkedin = "" := by
        rw [socialStep_linkedin_skip acc l hq']
        exact h
      rw [ih (fun x hx => hcross x (List.mem_cons_of_mem _ hx)) _ hstep,
        List.find?_cons_of_neg _ (by simp [hq'])]

theorem foldl_github_first (links : List String)
    (hcross : ∀ l ∈ links, linkCategoryCount l ≤ 1) :
    ∀ acc : SocialAcc, acc.github = "" →
    (links.foldl socialStep acc).github
      = (match links.find? githubOkB with
         | some l => l
         | none => "") := by
  induction links with
  | nil =>
    intro acc h
    simpa using h
  | cons l rest ih =>
    intro acc h
    rw [List.foldl_cons]
    by_cases hq : githubOkB l = true
    · have hhost : githubHostB l = true := by
        rw [githubOkB, Bool.and_eq_true] at hq
        exact hq.1
      obtain ⟨htw, hlk⟩ := crossFree_of_github l (hcross l (by simp)) hhost
      have hstep : (socialStep acc l).github = l :=
        socialStep_github_set acc l htw hlk hq h
      rw [foldl_github_ne rest _ (by rw [hstep]; exact githubOk_nonempty l hq), hstep,
        List.find?_cons_of_pos _ hq]
    · have hq' : githubOkB l = false := by
        cases hh : githubOkB l
        · rfl
        · exact absurd hh hq
      have hstep : (socialStep acc l).github = "" := by
        rw [socialStep_github_skip acc l hq']
        exact h
      rw [ih (fun x hx => hcross x (List.mem_cons_of_mem _ hx)) _ hstep,
        List.find?_cons_of_neg _ (by simp [hq'])]

theorem foldl_others_filter (links : List String)
    (hcross : ∀ l ∈ links, linkCategoryCount l ≤ 1) :
    ∀ acc : SocialAcc,
    (links.foldl socialStep acc).others = acc.others ++ links.filter otherAnyB := by
  induction links with
  | nil => intro acc; simp
  | cons l rest ih =>
    intro acc
    rw [List.foldl_cons]
    by_cases hq : otherAnyB l = true
    · obtain ⟨htw, hlk, hgh⟩ := crossFree_of_other l (hcross l (by simp)) hq
      rw [ih (fun x hx => hcross x (List.mem_cons_of_mem _ hx)) _,
        socialStep_others_append acc l htw hlk hgh hq,
        List.filter_cons_of_pos hq]
      simp
    · have hq' : otherAnyB l = false := by
        cases hh : otherAnyB l
        · rfl
        · exact absurd hh hq
      rw [ih (fun x hx => hcross x (List.mem_cons_of_mem _ hx)) _,
        socialStep_others_skip acc l hq',
        List.filter_cons_of_neg (by simp [hq'])]

/-- The cross-category link of the C6 counterexample: a twitter-host URL
that also contains `linkedin.com/in/` in its path. -/
def linkTwLk : String := "https://twitter.com/see-linkedin.com/in/bob"

/-- C6 counterexample: the first link on the page containing
`linkedin.com/in/` is a twitter-host link; the twitter branch of the elif
chain consumes it (setting the twitter slot), so the linkedin slot holds the
later pure linkedin link, not the first qualifying match of its category as
the claim states. -/
theorem C6_counterexample :
    (linkedinSubB linkTwLk = true)
    ∧ ((get_maker_social_links [linkTwLk, "https://linkedin.com/in/alice"]).1.twitter
        = linkTwLk)
    ∧ ((get_maker_social_links [linkTwLk, "https://linkedin.com/in/alice"]).1.linkedin
        = "https://linkedin.com/in/alice")
    ∧ ("https://linkedin.com/in/alice" ≠ linkTwLk) := by
  decide

/-- C6 (amended): the classifier assigns each link to at most one category
with the chain priority twitter → linkedin → github → other, and keeps only
the first link assigned to each category.  Unconditionally: the twitter slot
holds the first twitter/x link that is not the ProductHunt house account (so
a house account followed by a personal handle yields the personal handle); a
slot once filled is never replaced by a later match; a non-empty linkedin
value contains `linkedin.com/in/` and a non-empty github value has the
github host and none of the issue/pull/blob/tree segments.  For link lists
in which no link matches more than one category pattern (so the chain
priority never reassigns a link), linkedin and github hold exactly the first
qualifying match of their categories and the "other" links are collected
completely in encounter order; in every case `other_social` joins at most
the first 3 collected links with `" | "`. -/
theorem C6_social_classification (links : List String) :
    ((get_maker_social_links links).1.twitter
      = (match links.find? twitterQualB with
         | some l => l
         | none => ""))
    ∧ ((get_maker_social_links links).1.linkedin ≠ "" →
        linkedinSubB (get_maker_social_links links).1.linkedin = true)
    ∧ ((get_maker_social_links links).1.github ≠ "" →
        githubOkB (get_maker_social_links links).1.github = true)
    ∧ (∀ acc : SocialAcc, acc.twitter ≠ "" →
        (links.foldl socialStep acc).twitter = acc.twitter)
    ∧ (∀ acc : SocialAcc, acc.linkedin ≠ "" →
        (links.foldl socialStep acc).linkedin = acc.linkedin)
    ∧ (∀ acc : SocialAcc, acc.github ≠ "" →
        (links.foldl socialStep acc).github = acc.github)
    ∧ ((∀ l ∈ links, linkCategoryCount l ≤ 1) →
        ((get_maker_social_links links).1.linkedin
          = (match links.find? linkedinSubB with
             | some l => l
             | none => ""))
        ∧ ((get_maker_social_links links).1.github
          = (match links.find? githubOkB with
             | some l => l
             | none => ""))
        ∧ ((get_maker_social_links links).1.others = links.filter otherAnyB)
        ∧ ((get_maker_social_links links).2
          = joinSep " | " ((links.filter otherAnyB).take 3))
        ∧ ((links.filter otherAnyB).take 3).length ≤ 3)
    ∧ (∃ s, List.Sublist s links
        ∧ (get_maker_social_links links).1.others = s
        ∧ (get_maker_social_links links).2 = joinSep " | " (s.take 3)
        ∧ (s.take 3).length ≤ 3) := by
  refine ⟨foldl_twitter_first links ⟨"", "", "", []⟩ rfl,
    foldl_linkedin_inv links ⟨"", "", "", []⟩ (fun h => absurd rfl h),
    foldl_github_inv links ⟨"", "", "", []⟩ (fun h => absurd rfl h),
    foldl_twitter_ne links, foldl_linkedin_ne links, foldl_github_ne links, ?_, ?_⟩
  · intro hcross
    have hoth : (links.foldl socialStep ⟨"", "", "", []⟩).others
        = links.filter otherAnyB := by
      simpa using foldl_others_filter links hcross ⟨"", "", "", []⟩
    refine ⟨foldl_linkedin_first links hcross ⟨"", "", "", []⟩ rfl,
      foldl_github_first links hcross ⟨"", "", "", []⟩ rfl, hoth, ?_,
      List.length_take_le 3 _⟩
    show joinSep " | " ((links.foldl socialStep ⟨"", "", "", []⟩).others.take 3) = _
    rw [hoth]
  · obtain ⟨s, hs, he⟩ := foldl_others_sublist links ⟨"", "", "", []⟩
    have he' : (links.foldl socialStep ⟨"", "", "", []⟩).others = s := by simpa using he
    refine ⟨s, hs, he', ?_, List.length_take_le 3 s⟩
    show joinSep " | " ((links.foldl socialStep ⟨"", "", "", []⟩).others.take 3) = _
    rw [he']

/-- The cross-free page used by the C6 witness. -/
def wlinks : List String :=
  ["https://twitter.com/producthunt", "https://twitter.com/janedoe",
   "https://www.linkedin.com/in/jane", "https://github.com/janedoe/repo/issues/3",
   "https://github.com/janedoe", "https://instagram.com/jane"]

/-- C6 witness: on a page with the house account, a personal handle, a
linkedin profile, an excluded github issues link, a personal github link and
one "other" link, each slot holds exactly the first qualifying match. -/
theorem C6_witness :
    ((get_maker_social_links wlinks).1.twitter = "https://twitter.com/janedoe")
    ∧ ((get_maker_social_links wlinks).1.linkedin = "https://www.linkedin.com/in/jane")
    ∧ ((get_maker_social_links wlinks).1.github = "https://github.com/janedoe")
    ∧ ((get_maker_social_links wlinks).2 = "https://instagram.com/jane") := by
  have h := C6_social_classification wlinks
  have hg := h.2.2.2.2.2.2.1 (by decide)
  exact ⟨h.1.trans (by decide), hg.1.trans (by decide), hg.2.1.trans (by decide),
    hg.2.2.2.1.trans (by decide)⟩


/-! ### Claim C7: website resolution -/

theorem gpw_find (anchors : List Anchor) :
    get_product_website anchors
      = (match anchors.find? (fun a => anchorTextOkB a && anchorHrefOkB a) with
         | some a => stripQuery a.href
         | none => "") := by
  induction anchors with
  | nil => rfl
  | cons a rest ih =>
    by_cases ht : anchorTextOkB a = true
    · by_cases hh : anchorHrefOkB a = true
      · rw [List.find?_cons_of_pos _ (by simp [ht, hh])]
        simp [get_product_website, ht, hh]
      · have hh' : anchorHrefOkB a = false := by
          cases h : anchorHrefOkB a
          · rfl
          · exact absurd h hh
        rw [List.find?_cons_of_neg _ (by simp [hh']), ← ih]
        simp [get_product_website, ht, hh']
    · have ht' : anchorTextOkB a = false := by
        cases h : anchorTextOkB a
        · rfl
        · exact absurd h ht
      rw [List.find?_cons_of_neg _ (by simp [ht']), ← ih]
      simp [get_product_website, ht']

theorem gpw_first_text_match (anchors : List Anchor) :
    ∀ a, anchors.find? anchorTextOkB = some a → anchorHrefOkB a = true →
    get_product_website anchors = stripQuery a.href := by
  induction anchors with
  | nil => intro a h; exact absurd h (by simp)
  | cons b rest ih =>
    intro a hfind hok
    by_cases ht : anchorTextOkB b = true
    · rw [List.find?_cons_of_pos _ ht] at hfind
      injection hfind with hba
      subst hba
      simp [get_product_website, ht, hok]
    · have ht' : anchorTextOkB b = false := by
        cases h : anchorTextOkB b
        · rfl
        · exact absurd h ht
      rw [List.find?_cons_of_neg _ (by simp [ht'])] at hfind
      rw [show get_product_website (b :: rest) = get_product_website rest from by
        simp [get_product_website, ht']]
      exact ih a hfind hok

/-- C7 counterexample: a sole "visit website" anchor whose target's host
differs from the listing site's host but whose URL contains the substring
`producthunt.com`: the claim says the (query-stripped) target is returned,
but `get_product_website` rejects the anchor by its substring test and
returns the empty string. -/
theorem C7_counterexample :
    (anchorTextOkB ⟨"Visit website", "https://example.org/producthunt.com-roundup"⟩ = true)
    ∧ specHost "https://example.org/producthunt.com-roundup" = "example.org"
    ∧ specHost "https://example.org/producthunt.com-roundup" ≠ "www.producthunt.com"
    ∧ specHost "https://example.org/producthunt.com-roundup" ≠ "producthunt.com"
    ∧ get_product_website
        [⟨"Visit website", "https://example.org/producthunt.com-roundup"⟩] = ""
    ∧ "" ≠ stripQuery "https://example.org/producthunt.com-roundup" := by
  decide

/-- C7 (amended): website resolution returns the query-stripped target of
the first anchor whose text contains "visit website" case-insensitively
*and* whose non-empty target does not contain the substring
`producthunt.com` anywhere in the URL — a substring test, not a comparison
of the target's host with the listing site's host; in particular, when the
first text-matching anchor passes that substring test, its query-stripped
target is returned. -/
theorem C7_website_resolution (anchors : List Anchor) :
    (get_product_website anchors
      = (match anchors.find? (fun a => anchorTextOkB a && anchorHrefOkB a) with
         | some a => stripQuery a.href
         | none => ""))
    ∧ (∀ a, anchors.find? anchorTextOkB = some a → anchorHrefOkB a = true →
        get_product_website anchors = stripQuery a.href) :=
  ⟨gpw_find anchors, gpw_first_text_match anchors⟩

/-- C7 witness: the amended behaviour on a concrete page whose first
text-matching anchor passes the substring test: the ref query parameter is
stripped. -/
theorem C7_witness :
    get_product_website [⟨"More", "https://x.io"⟩,
      ⟨" Visit Website ", "https://acme.io/home?ref=producthunt"⟩]
      = "https://acme.io/home" := by
  have h := (C7_website_resolution [⟨"More", "https://x.io"⟩,
    ⟨" Visit Website ", "https://acme.io/home?ref=producthunt"⟩]).2
    ⟨" Visit Website ", "https://acme.io/home?ref=producthunt"⟩ (by decide) (by decide)
  exact h.trans (by decide)

/-! ### Claim C9: collector normalization and deduplication -/

theorem isInfixL_nil_left : ∀ b : List Char, isInfixL [] b = true
  | [] => rfl
  | _ :: rest => by simp [isInfixL, isPrefixL, isInfixL_nil_left rest]

theorem isPrefixL_append_self (pat : List Char) : ∀ b, isPrefixL pat (pat ++ b) = true := by
  induction pat with
  | nil => intro b; rfl
  | cons p ps ih => intro b; simp [isPrefixL, ih]

theorem isInfixL_sandwich (pat : List Char) : ∀ (a b : List Char),
    isInfixL pat (a ++ pat ++ b) = true := by
  intro a
  induction a with
  | nil =>
    intro b
    rw [List.nil_append]
    cases pat with
    | nil => exact isInfixL_nil_left b
    | cons p ps =>
      show (isPrefixL (p :: ps) ((p :: ps) ++ b) || isInfixL (p :: ps) (ps ++ b)) = true
      rw [isPrefixL_append_self]
      rfl
  | cons c a' ih =>
    intro b
    show (isPrefixL pat (c :: (a' ++ pat ++ b)) || isInfixL pat (a' ++ pat ++ b)) = true
    rw [ih b, Bool.or_true]

theorem take6_contains_sep (d rest : List Char) (hlen : d.length ≤ 4) :
    isInfixL ['.', ' '] ((d ++ '.' :: ' ' :: rest).take 6) = true := by
  have h1 : (d ++ '.' :: ' ' :: rest).take 6
      = d ++ ('.' :: ' ' :: rest).take (6 - d.length) := by
    rw [List.take_append_eq_append_take, List.take_of_length_le (by omega)]
  obtain ⟨k, hk⟩ : ∃ k, 6 - d.length = k + 2 := ⟨4 - d.length, by omega⟩
  rw [h1, hk]
  show isInfixL ['.', ' '] (d ++ '.' :: ' ' :: rest.take k) = true
  have h2 : d ++ '.' :: ' ' :: rest.take k = d ++ ['.', ' '] ++ rest.take k := by simp
  rw [h2]
  exact isInfixL_sandwich ['.', ' '] d (rest.take k)

theorem breakOnAux_digits (rest : List Char) : ∀ d : List Char,
    (∀ c ∈ d, isDigitB c = true) →
    breakOnAux ['.', ' '] (d ++ '.' :: ' ' :: rest) = some (d, rest) := by
  intro d
  induction d with
  | nil => intro _; rfl
  | cons c d' ih =>
    intro hd
    have hc : isDigitB c = true := hd c (by simp)
    have hne : ('.' == c) = false := by
      rw [beq_eq_false_iff_ne]
      intro he
      rw [← he] at hc
      exact absurd hc (by decide)
    have hih := ih (fun x hx => hd x (List.mem_cons_of_mem _ hx))
    rw [List.cons_append]
    simp [breakOnAux, isPrefixL, hne, hih]

theorem normalizeName_strips (d rest : String)
    (hne : d.data ≠ []) (hdig : ∀ c ∈ d.data, isDigitB c = true)
    (hlen : d.data.length ≤ 4) :
    normalizeName (d ++ ". " ++ rest) = rest := by
  have hdata : (d ++ ". " ++ rest).data = d.data ++ ('.' :: ' ' :: rest.data) := by
    show (d.data ++ ". ".data) ++ rest.data = d.data ++ ('.' :: ' ' :: rest.data)
    rw [List.append_assoc]
    rfl
  have hbreak : breakOnAux ". ".data (d ++ ". " ++ rest).data
      = some (d.data, rest.data) := by
    rw [hdata]
    exact breakOnAux_digits rest.data d.data hdig
  have hbreakS : breakOnS ". " (d ++ ". " ++ rest) = some (d, rest) := by
    unfold breakOnS
    rw [hbreak]
  have h1 : isInfixL ". ".data ((d ++ ". " ++ rest).data.take 6) = true := by
    rw [hdata]
    exact take6_contains_sep d.data rest.data hlen
  have h2 : d ≠ "" := fun h => hne (congrArg String.data h)
  have h3 : d.data.all isDigitB = true := List.all_eq_true.mpr hdig
  unfold normalizeName
  rw [hbreakS, hdata]
  simp [take6_contains_sep d.data rest.data hlen, h2, h3]

theorem collectAux_eq_filterMap : ∀ (seen : List String) (posts : List Post),
    collectAux seen posts = (dedupFirstAux seen posts).filterMap seedOf := by
  intro seen posts
  induction posts generalizing seen with
  | nil => rfl
  | cons p rest ih =>
    by_cases h : seen.contains p.postId = true
    · have hm : p.postId ∈ seen := List.elem_iff.mp h
      simp [collectAux, dedupFirstAux, hm, ih]
    · have hm : p.postId ∉ seen := fun hmm => h (List.elem_iff.mpr hmm)
      cases hs : seedOf p with
      | some s => simp [collectAux, dedupFirstAux, hm, hs, List.filterMap_cons, ih]
      | none => simp [collectAux, dedupFirstAux, hm, hs, List.filterMap_cons, ih]

theorem dedupFirstAux_mem : ∀ (posts : List Post) (seen : List String) (p : Post),
    p ∈ dedupFirstAux seen posts →
    seen.contains p.postId = false
    ∧ posts.find? (fun q => q.postId == p.postId) = some p := by
  intro posts
  induction posts with
  | nil => intro seen p h; exact absurd h (by simp [dedupFirstAux])
  | cons q rest ih =>
    intro seen p hp
    by_cases h : seen.contains q.postId = true
    · rw [show dedupFirstAux seen (q :: rest) = dedupFirstAux seen rest from by
        simp [dedupFirstAux, List.elem_iff.mp h]] at hp
      obtain ⟨hc, hfind⟩ := ih seen p hp
      have hqp : (q.postId == p.postId) = false := by
        rw [beq_eq_false_iff_ne]
        intro he
        rw [he] at h
        rw [h] at hc
        exact absurd hc (by decide)
      rw [List.find?_cons_of_neg _ (by simp [hqp])]
      exact ⟨hc, hfind⟩
    · have h' : seen.contains q.postId = false := by
        cases hh : seen.contains q.postId
        · rfl
        · exact absurd hh h
      have hm : q.postId ∉ seen := fun hmm => h (List.elem_iff.mpr hmm)
      rw [show dedupFirstAux seen (q :: rest)
          = q :: dedupFirstAux (q.postId :: seen) rest from by
        simp [dedupFirstAux, hm]] at hp
      rcases List.mem_cons.mp hp with rfl | hp'
      · exact ⟨h', List.find?_cons_of_pos _ (by simp)⟩
      · obtain ⟨hc, hfind⟩ := ih (q.postId :: seen) p hp'
        rw [List.contains_cons] at hc
        rw [Bool.or_eq_false_iff] at hc
        have hqp : (q.postId == p.postId) = false := by
          rw [beq_eq_false_iff_ne]
          intro he
          have := hc.1
          rw [beq_eq_false_iff_ne] at this
          exact this he.symm
        rw [List.find?_cons_of_neg _ (by simp [hqp])]
        exact ⟨hc.2, hfind⟩

theorem dedupFirstAux_nodup_ids : ∀ (posts : List Post) (seen : List String),
    ((dedupFirstAux seen posts).map Post.postId).Nodup := by
  intro posts
  induction posts with
  | nil => intro seen; simp [dedupFirstAux]
  | cons q rest ih =>
    intro seen
    by_cases h : seen.contains q.postId = true
    · rw [show dedupFirstAux seen (q :: rest) = dedupFirstAux seen rest from by
        simp [dedupFirstAux, List.elem_iff.mp h]]
      exact ih seen
    · have hm : q.postId ∉ seen := fun hmm => h (List.elem_iff.mpr hmm)
      rw [show dedupFirstAux seen (q :: rest)
          = q :: dedupFirstAux (q.postId :: seen) rest from by
        simp [dedupFirstAux, hm]]
      rw [List.map_cons, List.nodup_cons]
      refine ⟨?_, ih (q.postId :: seen)⟩
      intro hmem
      rw [List.mem_map] at hmem
      obtain ⟨p, hp, hid⟩ := hmem
      have hc := (dedupFirstAux_mem rest (q.postId :: seen) p hp).1
      rw [List.contains_cons, Bool.or_eq_false_iff] at hc
      have := hc.1
      rw [beq_eq_false_iff_ne] at this
      exact this hid

/-- The listing entry of the counterexample: a 5-digit numbered title. -/
def postWide : Post := ⟨"p1", "12345. Widget", "/products/widget", []⟩

/-- C9 counterexample: a title of exactly the claimed form `<digits>. Name`
whose digit string has five digits: the Collector stores it with the
numbered prefix NOT removed, because the source searches for `". "` only
within the title's first six characters. -/
theorem C9_counterexample :
    ("12345. Widget" = "12345" ++ ". " ++ "Widget")
    ∧ (("12345" : String).data ≠ [])
    ∧ (∀ c ∈ ("12345" : String).data, isDigitB c = true)
    ∧ ((collectSeeds [postWide]).map Seed.name = ["12345. Widget"])
    ∧ ("12345. Widget" ≠ "Widget") := by
  refine ⟨by decide, by decide, by decide, by decide, by decide⟩

/-- C9 (amended): the numbered-prefix normalization `"<digits>. Name" →
"Name"` applies exactly to prefixes of one to four digits (the source looks
for `". "` only within the first six characters of the title); and the
Collector keeps, for each per-item identifier, only the first-encountered
entry: its output is the seed images of the first-occurrence deduplication
of the posts, whose identifiers are pairwise distinct and each of which is
the first post carrying its identifier. -/
theorem C9_collector (posts : List Post) :
    (∀ (d rest : String), d.data ≠ [] → (∀ c ∈ d.data, isDigitB c = true) →
      d.data.length ≤ 4 → normalizeName (d ++ ". " ++ rest) = rest)
    ∧ collectSeeds posts = (dedupFirst posts).filterMap seedOf
    ∧ ((dedupFirst posts).map Post.postId).Nodup
    ∧ (∀ p ∈ dedupFirst posts, posts.find? (fun q => q.postId == p.postId) = some p) := by
  refine ⟨fun d rest h1 h2 h3 => normalizeName_strips d rest h1 h2 h3,
    collectAux_eq_filterMap [] posts, dedupFirstAux_nodup_ids posts [], ?_⟩
  intro p hp
  exact (dedupFirstAux_mem posts [] p hp).2

/-- The duplicate-identifier listing used by the C9 witness. -/
def postsDup : List Post :=
  [⟨"a", "1. X here", "/products/x", []⟩, ⟨"a", "2. Y", "/products/y", []⟩]

/-- C9 witness: a three-digit prefix is stripped, and of two entries sharing
one identifier only the first is collected. -/
theorem C9_witness :
    normalizeName ("333" ++ ". " ++ "ProductName") = "ProductName"
    ∧ collectSeeds postsDup = (dedupFirst postsDup).filterMap seedOf
    ∧ (collectSeeds postsDup).map Seed.name = ["X here"] := by
  have h := C9_collector postsDup
  exact ⟨h.1 "333" "ProductName" (by decide) (by decide) (by decide), h.2.1, by decide⟩

end MakerReach
